import Mathlib

/-!
# ghproxy/ghmetrics/ghpath.go

A shallow embedding of `GetSimplifiedPath` and of the recursive resolver it is
built on, followed by theorems about them.

Go strings are modelled by `String`; the only byte the code inspects is the
ASCII slash, so splitting on the character `'/'` agrees with what
`strings.FieldsFunc(path, splitFunc)` does on the bytes.
-/

namespace ghmetrics

/-! ## Data model -/

/-- The two implementations of the Go interface `PathFragment`:
`type literal string` and `type variable string`. -/
inductive PathFragment where
  | literal (value : String)
  | variable (name : String)
  deriving Repr, DecidableEq

/-- Method `Matches`: `string(l) == part` for a literal, `true` for a variable. -/
def PathFragment.Matches : PathFragment → String → Bool
  | .literal value, part => value == part
  | .variable _, _ => true

/-- Method `Represent`: `string(l)` for a literal, `":" + string(v)` for a variable. -/
def PathFragment.Represent : PathFragment → String
  | .literal value => value
  | .variable name => ":" ++ name

/-- Go `type node struct { PathFragment; children []node }`. -/
inductive node where
  | mk (fragment : PathFragment) (children : List node)
  deriving Repr

/-- Field `PathFragment` of a node. -/
def node.fragment : node → PathFragment
  | .mk f _ => f

/-- Field `children` of a node. -/
def node.children : node → List node
  | .mk _ cs => cs

/-- Constructor `func l(fragment string, children ...node) node`. -/
def l (fragment : String) (children : List node) : node :=
  node.mk (PathFragment.literal fragment) children

/-- Constructor `func v(fragment string, children ...node) node`. -/
def v (fragment : String) (children : List node) : node :=
  node.mk (PathFragment.variable fragment) children

/-! ## Tokenization -/

/-- Go `func splitFunc(c rune) bool { return c == '/' }`. -/
def splitFunc (c : Char) : Bool := c == '/'

/-- The loop of Go's `strings.FieldsFunc`: `cur` holds the characters of the
field that is open (empty when no field is open, Go's `start < 0`); a
character on which `f` holds closes the open field, any other character
extends it, and the end of the input closes it. -/
def fieldsLoop (f : Char → Bool) : List Char → List Char → List String
  | [], cur => if cur.isEmpty then [] else [String.mk cur]
  | c :: cs, cur =>
    if f c then
      if cur.isEmpty then fieldsLoop f cs [] else String.mk cur :: fieldsLoop f cs []
    else fieldsLoop f cs (cur ++ [c])

/-- Go's `strings.FieldsFunc(s, f)`. -/
def FieldsFunc (s : String) (f : Char → Bool) : List String :=
  fieldsLoop f s.data []

/-! ## The resolver -/

mutual
/-- Go `func resolve(parent node, path []string) (string, bool)`. -/
def resolve : node → List String → String × Bool
  | _, [] => ("", true)
  | node.mk fragment children, part :: rest =>
    match (if fragment.Represent == "" then resolveDispatch children (part :: rest)
           else none) with
    | some found => found
    | none =>
      if !fragment.Matches part then ("", false)
      else if children.isEmpty then (fragment.Represent, true)
      else resolveChildren fragment.Represent children rest
/-- The first loop of `resolve` (taken when `parent.Represent() == ""`): every
child is resolved against the whole path, and the first one that matches with
a non-empty suffix returns `"/" + suffix`; `none` when the loop falls through. -/
def resolveDispatch : List node → List String → Option (String × Bool)
  | [], _ => none
  | child :: others, path =>
    match resolve child path with
    | (suffix, matched) =>
      if matched && suffix != "" then some ("/" ++ suffix, true)
      else resolveDispatch others path
/-- The second loop of `resolve`: every child is resolved against `path[1:]`,
the first one that matches returns `representation + "/" + suffix` (or
`representation` alone when the suffix is empty); `("", false)` when the loop
falls through. -/
def resolveChildren (representation : String) : List node → List String → String × Bool
  | [], _ => ("", false)
  | child :: others, path =>
    match resolve child path with
    | (suffix, matched) =>
      if matched then
        if suffix != "" then (representation ++ "/" ++ suffix, true)
        else (representation, true)
      else resolveChildren representation others path
end

/-- The schema tree built at the top of `GetSimplifiedPath`. -/
def tree : node :=
  l "" [ -- shadow element mimicing the root
    l "repos" [
      v "owner" [
        v "repo" [
          l "branches" [v "branch" [l "protection" [
            l "restrictions" [l "users" [], l "teams" []],
            l "required_status_checks" [l "contexts" []],
            l "required_pull_request_reviews" [],
            l "required_signatures" [],
            l "enforce_admins" []]]],
          l "issues" [
            l "comments" [v "commentId" []],
            l "events" [v "eventId" []],
            v "issueId" [
              l "lock" [],
              l "comments" [],
              l "events" [],
              l "labels" [v "labelId" []]]],
          l "keys" [v "keyId" []],
          l "labels" [v "labelId" []],
          l "milestones" [v "milestone" []],
          l "pulls" [v "pullId" []],
          l "releases" [v "releaseId" []],
          l "statuses" [v "statusId" []],
          l "subscribers" [v "subscriberId" []],
          l "assignees" [v "assigneeId" []],
          l "archive" [v "zip" []],
          l "collaborators" [v "collaboratorId" []],
          l "comments" [v "commentId" []],
          l "compare" [v "sha" []],
          l "contents" [v "contentId" []],
          l "commits" [v "sha" []],
          l "git" [
            l "commits" [v "sha" []],
            l "ref" [v "refId" []],
            l "tags" [v "tagId" []],
            l "trees" [v "sha" []],
            l "refs" [l "heads" [v "ref" []]]],
          l "stars" [],
          l "merges" [],
          l "stargazers" [],
          l "notifications" [],
          l "hooks" [],
          l "deployments" [],
          l "downloads" [],
          l "events" [],
          l "forks" [],
          l "topics" [],
          l "vulnerability-alerts" [],
          l "automated-security-fixes" [],
          l "contributors" [],
          l "languages" [],
          l "teams" [],
          l "tags" [],
          l "transfer" []]]],
    l "user" [
      l "following" [v "userId" []],
      l "keys" [v "keyId" []],
      l "email" [l "visibility" []],
      l "emails" [],
      l "public_emails" [],
      l "followers" [],
      l "starred" [],
      l "issues" []],
    l "users" [
      v "username" [
        l "followers" [v "username" []],
        l "repos" [],
        l "hovercard" [],
        l "following" []]],
    l "orgs" [
      v "orgname" [
        l "credential-authorizations" [v "credentialId" []],
        l "repos" [],
        l "issues" [],
        l "invitations" [],
        l "members" [],
        l "teams" []]],
    l "organizations" [
      v "orgId" [
        l "members" [],
        l "teams" []]],
    l "issues" [v "issueId" []],
    l "search" [
      l "repositories" [],
      l "commits" [],
      l "code" [],
      l "issues" [],
      l "users" [],
      l "topics" [],
      l "labels" []],
    l "gists" [
      l "public" [],
      l "starred" []],
    l "notifications" [l "threads" [v "threadId" [l "subscription" []]]],
    l "repositories" [],
    l "emojis" [],
    l "events" [],
    l "feeds" [],
    l "hub" [],
    l "rate_limit" [],
    l "teams" [],
    l "licenses" []]

/-- Go `func GetSimplifiedPath(path string) string`: the path is split on
slashes, resolved against `tree`, and returned as it came when the resolution
reports no match (the warning that is logged then is not modelled). -/
def GetSimplifiedPath (path : String) : String :=
  let splitPath := FieldsFunc path splitFunc
  match resolve tree splitPath with
  | (resolvedPath, matched) => if !matched then path else resolvedPath

/-- The boolean `matches` that `GetSimplifiedPath` receives from `resolve`. -/
def pathMatches (path : String) : Bool :=
  (resolve tree (FieldsFunc path splitFunc)).2

/-! ## The recursion of `resolve`, with a bound on its depth

The body of `resolve` once more, with the recursive call passed in as `call`
and allowed to return no result: `resolve` above is defined by recursion on
the tree, which the Go function is not, so its termination is stated on this
second embedding. -/

/-- The first loop of `resolve` (`for _, child := range parent.children` under
`parent.Represent() == ""`), with `call child path` for `resolve(child, path)`:
`none` when a call returns no result, `some none` when the loop falls through. -/
def dispatchLoop (call : node → List String → Option (String × Bool)) :
    List node → List String → Option (Option (String × Bool))
  | [], _ => some none
  | child :: others, path =>
    match call child path with
    | none => none
    | some (suffix, matched) =>
      if matched && suffix != "" then some (some ("/" ++ suffix, true))
      else dispatchLoop call others path

/-- The second loop of `resolve`, with `call child path` for
`resolve(child, path[1:])`: `none` when a call returns no result. -/
def childrenLoop (call : node → List String → Option (String × Bool))
    (representation : String) : List node → List String → Option (String × Bool)
  | [], _ => some ("", false)
  | child :: others, path =>
    match call child path with
    | none => none
    | some (suffix, matched) =>
      if matched then
        if suffix != "" then some (representation ++ "/" ++ suffix, true)
        else some (representation, true)
      else childrenLoop call representation others path

/-- The body of Go `func resolve(parent node, path []string) (string, bool)`,
with `call` for its recursive calls. -/
def resolveStep (call : node → List String → Option (String × Bool)) :
    node → List String → Option (String × Bool)
  | _, [] => some ("", true)
  | node.mk fragment children, part :: rest =>
    match (if fragment.Represent == "" then dispatchLoop call children (part :: rest)
           else some none) with
    | none => none
    | some (some found) => some found
    | some none =>
      if !fragment.Matches part then some ("", false)
      else if children.isEmpty then some (fragment.Represent, true)
      else childrenLoop call fragment.Represent children rest

/-- The function `resolve` run with at most `fuel` nested calls: a call that
would go deeper returns no result. -/
def resolveFuel : Nat → node → List String → Option (String × Bool)
  | 0 => fun _ _ => none
  | fuel + 1 => resolveStep (resolveFuel fuel)

/-! ## Vocabulary of the statements

Branches and chains of the tree, the slash-free runs of a string and the
recursive calls of `resolve`: these definitions describe the tree and the
code, and are not functions of the Go code. -/

mutual
/-- The segments follow a branch from this node down to a leaf: the node
matches the first segment, and either it is a leaf and no segment is left, or
the remaining segments follow a branch from one of its children. -/
def node.onBranch : node → List String → Bool
  | _, [] => false
  | node.mk fragment children, part :: rest =>
    fragment.Matches part &&
      (if children.isEmpty then rest.isEmpty else anyOnBranch children rest)
/-- The segments follow a branch from one of the nodes of the list down to a leaf. -/
def anyOnBranch : List node → List String → Bool
  | [], _ => false
  | child :: others, path => child.onBranch path || anyOnBranch others path
end

mutual
/-- The branches from this node down to a leaf that consist of literal nodes
only, each as the list of its literals. -/
def node.literalBranches : node → List (List String)
  | node.mk (.variable _) _ => []
  | node.mk (.literal value) children =>
    if children.isEmpty then [[value]]
    else (literalBranchesOf children).map (fun branch => value :: branch)
/-- The literal-only branches that start at one of the nodes of the list. -/
def literalBranchesOf : List node → List (List String)
  | [] => []
  | child :: others => child.literalBranches ++ literalBranchesOf others
end

/-- The chain `n₁, …, nₖ` of nodes runs down the tree and matches the first
segments of the path: `n₁` is one of the candidates, every next node is a
child of the one before it, `nᵢ` matches the `i`-th segment, and the chain is
no longer than the path. -/
def chainMatches : List node → List node → List String → Prop
  | _, [], _ => True
  | _, _ :: _, [] => False
  | candidates, n :: chain, part :: rest =>
    n ∈ candidates ∧ n.fragment.Matches part = true ∧ chainMatches n.children chain rest

/-- The template of a chain of nodes: their representations joined by "/". -/
def chainTemplate (chain : List node) : String :=
  "/".intercalate (chain.map (fun n => n.fragment.Represent))

mutual
/-- No node of the subtree has an empty representation. -/
def node.plain : node → Bool
  | node.mk fragment children => fragment.Represent != "" && allPlain children
/-- No node of the subtrees of the list has an empty representation. -/
def allPlain : List node → Bool
  | [] => true
  | child :: others => child.plain && allPlain others
end

mutual
/-- The representations along every chain that starts at this node and runs
down the tree, whether it reaches a leaf or not. -/
def node.chains : node → List (List String)
  | node.mk fragment children =>
    [fragment.Represent] :: (chainsOf children).map (fun chain => fragment.Represent :: chain)
/-- The representations along every chain that starts at a node of the list. -/
def chainsOf : List node → List (List String)
  | [] => []
  | child :: others => child.chains ++ chainsOf others
end

/-- The segments are the maximal slash-free runs of the characters, in order:
a slash is skipped, and a non-empty run without a slash that extends to the
end of the input or to the next slash is one segment. -/
inductive SlashFreeRuns : List Char → List String → Prop where
  | done : SlashFreeRuns [] []
  | skip (t : List Char) (segs : List String) :
      SlashFreeRuns t segs → SlashFreeRuns ('/' :: t) segs
  | last (w : List Char) : w ≠ [] → '/' ∉ w → SlashFreeRuns w [String.mk w]
  | run (w t : List Char) (segs : List String) : w ≠ [] → '/' ∉ w →
      SlashFreeRuns t segs → SlashFreeRuns (w ++ '/' :: t) (String.mk w :: segs)

/-- The recursive calls of `resolve`: `resolveCall callee caller` holds when
the body of `resolve`, run on the node and path `caller`, can reach a call
on the node and path `callee`. The first loop calls every child on the whole
path when the representation is empty; the second loop calls every child on
`path[1:]` when the node matches `path[0]`. -/
inductive resolveCall : node × List String → node × List String → Prop where
  | dispatch (fragment : PathFragment) (children : List node) (child : node)
      (part : String) (rest : List String) :
      fragment.Represent = "" → child ∈ children →
      resolveCall (child, part :: rest) (node.mk fragment children, part :: rest)
  | descend (fragment : PathFragment) (children : List node) (child : node)
      (part : String) (rest : List String) :
      fragment.Matches part = true → child ∈ children →
      resolveCall (child, rest) (node.mk fragment children, part :: rest)

mutual
/-- The number of nodes on the longest chain from this node down to a leaf. -/
def node.height : node → Nat
  | node.mk _ children => heightOf children + 1
/-- The largest height among the nodes of the list, 0 for the empty list. -/
def heightOf : List node → Nat
  | [] => 0
  | child :: others => max child.height (heightOf others)
end

/-! ## Facts about the tokenizer -/

theorem fieldsLoop_mem (f : Char → Bool) :
    ∀ (s cur : List Char) (x : String), x ∈ fieldsLoop f s cur →
      (∀ c ∈ cur, f c = false) → x.data ≠ [] ∧ ∀ c ∈ x.data, f c = false := by
  intro s
  induction s with
  | nil =>
    intro cur x hx hcur
    cases cur with
    | nil => simp [fieldsLoop] at hx
    | cons a as =>
      simp [fieldsLoop] at hx
      subst hx
      exact ⟨by simp, hcur⟩
  | cons c cs ih =>
    intro cur x hx hcur
    by_cases hf : f c = true
    · cases cur with
      | nil =>
        simp [fieldsLoop, hf] at hx
        exact ih [] x hx (by simp)
      | cons a as =>
        simp [fieldsLoop, hf] at hx
        rcases hx with rfl | hx
        · exact ⟨by simp, hcur⟩
        · exact ih [] x hx (by simp)
    · simp [fieldsLoop, hf] at hx
      refine ih (cur ++ [c]) x hx ?_
      intro d hd
      rcases List.mem_append.1 hd with hd | hd
      · exact hcur d hd
      · simp at hd
        subst hd
        simpa using hf

/-- Every segment that the tokenizer produces is non-empty and slash-free. -/
theorem FieldsFunc_mem (path x : String) (hx : x ∈ FieldsFunc path splitFunc) :
    x ≠ "" ∧ '/' ∉ x.data := by
  have h := fieldsLoop_mem splitFunc path.data [] x hx (by simp)
  refine ⟨?_, ?_⟩
  · intro hxe
    apply h.1
    rw [hxe]
  · intro hmem
    have := h.2 '/' hmem
    simp [splitFunc] at this

theorem fieldsLoop_append_free (f : Char → Bool) (w : List Char)
    (hw : ∀ c ∈ w, f c = false) :
    ∀ (t cur : List Char), fieldsLoop f (w ++ t) cur = fieldsLoop f t (cur ++ w) := by
  induction w with
  | nil => simp
  | cons c cs ih =>
    intro t cur
    have hc : f c = false := hw c (by simp)
    rw [List.cons_append, fieldsLoop]
    simp only [hc, Bool.false_eq_true, if_false]
    rw [ih (fun d hd => hw d (by simp [hd]))]
    simp

/-- A non-empty slash-free segment in front of a slash is the first field. -/
theorem fieldsLoop_segment_slash (w : String) (t : List Char) (h0 : w ≠ "")
    (hw : '/' ∉ w.data) :
    fieldsLoop splitFunc (w.data ++ '/' :: t) [] = w :: fieldsLoop splitFunc t [] := by
  have hfree : ∀ c ∈ w.data, splitFunc c = false := by
    intro c hc
    simp only [splitFunc, beq_eq_false_iff_ne, ne_eq]
    rintro rfl
    exact hw hc
  have hne : w.data ≠ [] := by
    intro h
    apply h0
    exact String.ext h
  rw [fieldsLoop_append_free splitFunc w.data hfree, fieldsLoop]
  simp [splitFunc, hne]

/-- A non-empty slash-free segment at the end of the input is the last field. -/
theorem fieldsLoop_segment_end (w : String) (h0 : w ≠ "") (hw : '/' ∉ w.data) :
    fieldsLoop splitFunc w.data [] = [w] := by
  have hfree : ∀ c ∈ w.data, splitFunc c = false := by
    intro c hc
    simp only [splitFunc, beq_eq_false_iff_ne, ne_eq]
    rintro rfl
    exact hw hc
  have hne : w.data ≠ [] := by
    intro h
    apply h0
    exact String.ext h
  have h := fieldsLoop_append_free splitFunc w.data hfree [] []
  rw [List.append_nil] at h
  rw [h, fieldsLoop]
  simp [hne]

theorem fieldsLoop_slash (t : List Char) :
    fieldsLoop splitFunc ('/' :: t) [] = fieldsLoop splitFunc t [] := by
  simp [fieldsLoop, splitFunc]

/-- Tokenizing a path spelled with one slash in front of each of its
non-empty, slash-free segments gives these segments back. -/
theorem fieldsLoop_slash_segments (segs : List String)
    (h : ∀ w ∈ segs, w ≠ "" ∧ '/' ∉ w.data) :
    fieldsLoop splitFunc (segs.map (fun w => '/' :: w.data)).flatten [] = segs := by
  induction segs with
  | nil => simp [fieldsLoop]
  | cons w rest ih =>
    have hw := h w (by simp)
    have hrest := ih (fun x hx => h x (by simp [hx]))
    rw [List.map_cons, List.flatten_cons, List.cons_append, fieldsLoop_slash]
    cases rest with
    | nil =>
      simp only [List.map_nil, List.flatten_nil, List.append_nil]
      exact fieldsLoop_segment_end w hw.1 hw.2
    | cons x xs =>
      rw [List.map_cons, List.flatten_cons, List.cons_append] at hrest ⊢
      rw [fieldsLoop_segment_slash w _ hw.1 hw.2, ← fieldsLoop_slash, hrest]

theorem FieldsFunc_of_data (path : String) (segs : List String)
    (hd : path.data = (segs.map (fun w => '/' :: w.data)).flatten)
    (h : ∀ w ∈ segs, w ≠ "" ∧ '/' ∉ w.data) :
    FieldsFunc path splitFunc = segs := by
  rw [FieldsFunc, hd, fieldsLoop_slash_segments segs h]

/-- While a field is open, the characters read so far are the beginning of
the next field that the tokenizer returns. -/
theorem fieldsLoop_open (f : Char → Bool) :
    ∀ (t cur : List Char), cur ≠ [] →
      ∃ x xs, fieldsLoop f t cur = x :: xs ∧ cur <+: x.data := by
  intro t
  induction t with
  | nil =>
    intro cur hcur
    exact ⟨String.mk cur, [], by simp [fieldsLoop, hcur], List.prefix_refl _⟩
  | cons c cs ih =>
    intro cur hcur
    by_cases hf : f c = true
    · exact ⟨String.mk cur, fieldsLoop f cs [], by simp [fieldsLoop, hf, hcur],
        List.prefix_refl _⟩
    · obtain ⟨x, xs, hx, hpre⟩ := ih (cur ++ [c]) (by simp)
      refine ⟨x, xs, by simp [fieldsLoop, hf, hx], ?_⟩
      exact List.IsPrefix.trans (List.prefix_append cur [c]) hpre

/-- The template of a child of the synthetic root starts with the segment
that the child has matched. -/
theorem FieldsFunc_root_template (part suffix : String) (h0 : part ≠ "")
    (hfree : '/' ∉ part.data)
    (h : suffix = part ∨ ∃ t, suffix = part ++ "/" ++ t) :
    (FieldsFunc ("/" ++ suffix) splitFunc).head? = some part := by
  rcases h with rfl | ⟨t, rfl⟩
  · have hd : ("/" ++ suffix).data = '/' :: suffix.data := by simp
    rw [FieldsFunc, hd, fieldsLoop_slash, fieldsLoop_segment_end suffix h0 hfree]
    rfl
  · have hd : ("/" ++ (part ++ "/" ++ t)).data = '/' :: (part.data ++ '/' :: t.data) := by
      simp
    rw [FieldsFunc, hd, fieldsLoop_slash, fieldsLoop_segment_slash part _ h0 hfree]
    rfl

/-- The tokenizer returns the maximal slash-free runs of what it has read:
the open field followed by the rest of the input. -/
theorem fieldsLoop_runs : ∀ (d cur : List Char), '/' ∉ cur →
    SlashFreeRuns (cur ++ d) (fieldsLoop splitFunc d cur) := by
  intro d
  induction d with
  | nil =>
    intro cur hcur
    cases cur with
    | nil => simpa [fieldsLoop] using SlashFreeRuns.done
    | cons a as =>
      simpa [fieldsLoop] using SlashFreeRuns.last (a :: as) (by simp) hcur
  | cons c t ih =>
    intro cur hcur
    by_cases hc : c = '/'
    · subst hc
      cases cur with
      | nil =>
        simpa [fieldsLoop, splitFunc] using SlashFreeRuns.skip t _ (ih [] (by simp))
      | cons a as =>
        have h := SlashFreeRuns.run (a :: as) t _ (by simp) hcur (ih [] (by simp))
        simpa [fieldsLoop, splitFunc] using h
    · have hcur2 : '/' ∉ cur ++ [c] := by
        simp only [List.mem_append, List.mem_singleton, not_or]
        exact ⟨hcur, fun h => hc h.symm⟩
      have h := ih (cur ++ [c]) hcur2
      simpa [fieldsLoop, splitFunc, hc] using h

/-- The maximal slash-free runs of an input are what the tokenizer returns. -/
theorem fieldsLoop_of_runs (d : List Char) (segs : List String)
    (h : SlashFreeRuns d segs) : fieldsLoop splitFunc d [] = segs := by
  induction h with
  | done => simp [fieldsLoop]
  | skip t segs _ ih => rw [fieldsLoop_slash, ih]
  | last w hw hfree =>
    have hne : String.mk w ≠ "" := by
      intro habs
      exact hw (congrArg String.data habs)
    exact fieldsLoop_segment_end (String.mk w) hne hfree
  | run w t segs hw hfree _ ih =>
    have hne : String.mk w ≠ "" := by
      intro habs
      exact hw (congrArg String.data habs)
    have := fieldsLoop_segment_slash (String.mk w) t hne hfree
    simp only at this
    rw [this, ih]

/-! ## Facts about the resolver on an arbitrary tree -/

theorem resolve_nil (n : node) : resolve n [] = ("", true) := by
  cases n
  simp [resolve]

theorem resolve_cons_of_represent_ne (fragment : PathFragment) (children : List node)
    (part : String) (rest : List String) (h : fragment.Represent ≠ "") :
    resolve (node.mk fragment children) (part :: rest) =
      if !fragment.Matches part then ("", false)
      else if children.isEmpty then (fragment.Represent, true)
      else resolveChildren fragment.Represent children rest := by
  simp [resolve, h]

theorem resolve_literal_mismatch (value : String) (children : List node)
    (part : String) (rest : List String) (h0 : value ≠ "") (h : value ≠ part) :
    resolve (node.mk (.literal value) children) (part :: rest) = ("", false) := by
  rw [resolve_cons_of_represent_ne _ _ _ _ (by simpa [PathFragment.Represent] using h0)]
  simp [PathFragment.Matches, h]

theorem variable_represent_ne (name : String) :
    (PathFragment.variable name).Represent ≠ "" := by
  intro h
  have := congrArg String.data h
  simp [PathFragment.Represent] at this

/-- A variable node does not look at the segment it consumes. -/
theorem resolve_variable (name : String) (children : List node) (part part' : String)
    (rest : List String) :
    resolve (node.mk (.variable name) children) (part :: rest) =
      resolve (node.mk (.variable name) children) (part' :: rest) := by
  rw [resolve_cons_of_represent_ne _ _ _ _ (variable_represent_ne name),
    resolve_cons_of_represent_ne _ _ _ _ (variable_represent_ne name)]
  simp [PathFragment.Matches]

theorem append_slash_ne_empty (a b : String) : a ++ "/" ++ b ≠ "" := by
  intro h
  have := congrArg String.data h
  simp at this

theorem resolveDispatch_eq_none (children : List node) (path : List String)
    (h : ∀ c ∈ children, (resolve c path).2 = false) :
    resolveDispatch children path = none := by
  induction children with
  | nil => simp [resolveDispatch]
  | cons c cs ih =>
    have hc := h c (by simp)
    have hcs := ih (fun d hd => h d (by simp [hd]))
    simp [resolveDispatch, hc, hcs]

theorem resolveDispatch_eq_some (children : List node) (path : List String)
    (found : String × Bool) (h : resolveDispatch children path = some found) :
    ∃ c ∈ children, ∃ suffix, resolve c path = (suffix, true) ∧ suffix ≠ "" ∧
      found = ("/" ++ suffix, true) := by
  induction children with
  | nil => simp [resolveDispatch] at h
  | cons c cs ih =>
    rw [resolveDispatch] at h
    rcases hr : resolve c path with ⟨suffix, matched⟩
    rw [hr] at h
    by_cases hm : (matched && suffix != "") = true
    · simp only [hm, if_true, Option.some.injEq] at h
      simp only [Bool.and_eq_true, bne_iff_ne, ne_eq] at hm
      exact ⟨c, by simp, suffix, by rw [hr, hm.1], hm.2, h.symm⟩
    · simp only [hm] at h
      obtain ⟨d, hd, rest⟩ := ih h
      exact ⟨d, by simp [hd], rest⟩

theorem resolveDispatch_isSome (children : List node) (path : List String)
    (h : ∃ c ∈ children, ∃ suffix, resolve c path = (suffix, true) ∧ suffix ≠ "") :
    ∃ found, resolveDispatch children path = some found := by
  induction children with
  | nil => simp at h
  | cons c cs ih =>
    rw [resolveDispatch]
    rcases hr : resolve c path with ⟨suffix, matched⟩
    by_cases hm : (matched && suffix != "") = true
    · refine ⟨("/" ++ suffix, true), ?_⟩
      simp only [hm, if_true]
    · simp only [hm, if_false, Bool.false_eq_true]
      apply ih
      obtain ⟨d, hd, s, hds, hs⟩ := h
      rcases List.mem_cons.1 hd with rfl | hd
      · rw [hr] at hds
        simp only [Prod.mk.injEq] at hds
        simp [hds.1, hds.2, hs] at hm
      · exact ⟨d, hd, s, hds, hs⟩

theorem resolveChildren_matched (representation : String) (children : List node)
    (path : List String) (h : ∃ c ∈ children, (resolve c path).2 = true) :
    (resolveChildren representation children path).2 = true := by
  induction children with
  | nil => simp at h
  | cons c cs ih =>
    rw [resolveChildren]
    rcases hr : resolve c path with ⟨suffix, matched⟩
    cases matched with
    | true =>
      by_cases hs : suffix = "" <;> simp [hs]
    | false =>
      simp only [Bool.false_eq_true, if_false]
      apply ih
      obtain ⟨d, hd, hdm⟩ := h
      rcases List.mem_cons.1 hd with rfl | hd
      · rw [hr] at hdm
        simp at hdm
      · exact ⟨d, hd, hdm⟩

/-- What the second loop of `resolve` can return: a failure with the empty
string, or a match whose template starts with the representation. -/
theorem resolveChildren_shape (representation : String) (children : List node)
    (path : List String) :
    resolveChildren representation children path = ("", false) ∨
      resolveChildren representation children path = (representation, true) ∨
      ∃ suffix, resolveChildren representation children path =
        (representation ++ "/" ++ suffix, true) := by
  induction children with
  | nil => simp [resolveChildren]
  | cons c cs ih =>
    rw [resolveChildren]
    rcases hr : resolve c path with ⟨suffix, matched⟩
    cases matched with
    | true =>
      by_cases hs : suffix = ""
      · simp [hs]
      · right; right
        exact ⟨suffix, by simp [hs]⟩
    | false => simpa using ih

/-- A node with a non-empty representation returns, on a non-empty path, a
failure with the empty string or a match whose template starts with the
representation. -/
theorem resolve_shape (fragment : PathFragment) (children : List node) (part : String)
    (rest : List String) (h : fragment.Represent ≠ "") :
    resolve (node.mk fragment children) (part :: rest) = ("", false) ∨
      resolve (node.mk fragment children) (part :: rest) = (fragment.Represent, true) ∨
      ∃ suffix, resolve (node.mk fragment children) (part :: rest) =
        (fragment.Represent ++ "/" ++ suffix, true) := by
  rw [resolve_cons_of_represent_ne _ _ _ _ h]
  by_cases hm : fragment.Matches part = true
  · by_cases hleaf : children.isEmpty = true
    · simp [hm, hleaf]
    · simpa [hm, hleaf] using resolveChildren_shape fragment.Represent children rest
  · simp [hm]

theorem anyOnBranch_iff (children : List node) (path : List String) :
    anyOnBranch children path = true ↔ ∃ c ∈ children, c.onBranch path = true := by
  induction children with
  | nil => simp [anyOnBranch]
  | cons c cs ih => simp [anyOnBranch, ih]

/-- A node that lies on a branch followed by the first segments of a path
matches that path, whatever segments come after the branch. -/
theorem onBranch_matched : ∀ (s : List String) (n : node) (e : List String),
    n.onBranch s = true → (resolve n (s ++ e)).2 = true := by
  intro s
  induction s with
  | nil =>
    intro n e h
    cases n
    simp [node.onBranch] at h
  | cons part rest ih =>
    intro n e h
    obtain ⟨fragment, children⟩ := n
    simp only [node.onBranch, Bool.and_eq_true] at h
    obtain ⟨hm, hrest⟩ := h
    simp only [List.cons_append, resolve]
    split
    · rename_i found hfound
      by_cases hrep : (fragment.Represent == "") = true
      · rw [if_pos hrep] at hfound
        obtain ⟨_, _, suffix, _, _, hf⟩ := resolveDispatch_eq_some _ _ _ hfound
        rw [hf]
      · rw [if_neg hrep] at hfound
        cases hfound
    · simp only [hm, Bool.not_true, Bool.false_eq_true, if_false]
      by_cases hleaf : children.isEmpty = true
      · simp [hleaf]
      · simp only [hleaf, if_false, Bool.false_eq_true] at hrest ⊢
        obtain ⟨c, hc, hcb⟩ := (anyOnBranch_iff children rest).1 hrest
        exact resolveChildren_matched _ _ _ ⟨c, hc, ih c e hcb⟩

/-- A match on a path whose first segment is not empty has a non-empty template. -/
theorem resolve_template_ne_empty (n : node) (part : String) (rest : List String)
    (h0 : part ≠ "") (out : String) (h : resolve n (part :: rest) = (out, true)) :
    out ≠ "" := by
  obtain ⟨fragment, children⟩ := n
  by_cases hrep : fragment.Represent = ""
  · rw [resolve] at h
    simp only [hrep, beq_self_eq_true, if_true] at h
    cases hd : resolveDispatch children (part :: rest) with
    | some found =>
      rw [hd] at h
      obtain ⟨_, _, suffix, _, _, hf⟩ := resolveDispatch_eq_some _ _ _ hd
      simp only at h
      rw [hf] at h
      have h1 := congrArg Prod.fst h
      simp only at h1
      rw [← h1]
      intro habs
      have := congrArg String.data habs
      simp at this
    | none =>
      rw [hd] at h
      simp only at h
      have hm : fragment.Matches part = false := by
        rcases fragment with value | name
        · simp only [PathFragment.Represent] at hrep
          simp [PathFragment.Matches, hrep, Ne.symm h0]
        · exact absurd hrep (variable_represent_ne name)
      simp [hm] at h
  · rcases resolve_shape fragment children part rest hrep with hs | hs | ⟨t, hs⟩
    · rw [hs] at h
      simp at h
    · rw [hs] at h
      have h1 := congrArg Prod.fst h
      simp only at h1
      rw [← h1]
      exact hrep
    · rw [hs] at h
      have h1 := congrArg Prod.fst h
      simp only at h1
      rw [← h1]
      exact append_slash_ne_empty _ _

/-- The first loop of `resolve` returns the first child that matches, when
every match of a child has a non-empty template. -/
theorem resolveDispatch_eq_find (children : List node) (path : List String)
    (h : ∀ c ∈ children, ∀ out, resolve c path = (out, true) → out ≠ "") :
    resolveDispatch children path =
      (children.find? (fun c => (resolve c path).2)).map
        (fun c => ("/" ++ (resolve c path).1, true)) := by
  induction children with
  | nil => simp [resolveDispatch]
  | cons c cs ih =>
    have ih2 := ih (fun d hd => h d (by simp [hd]))
    rw [resolveDispatch, List.find?_cons]
    rcases hr : resolve c path with ⟨suffix, matched⟩
    cases matched with
    | true =>
      have hne : suffix ≠ "" := h c (by simp) suffix hr
      simp [hne, hr]
    | false =>
      simp [ih2, hr]

/-- A node whose children all reject the next segment reports a failure: the
match of the node itself is not returned as a partial result. -/
theorem resolve_children_reject (fragment : PathFragment) (children : List node)
    (part next : String) (rest : List String) (hrep : fragment.Represent ≠ "")
    (hchildren : children ≠ [])
    (hreject : ∀ c ∈ children, c.fragment.Represent ≠ "" ∧ c.fragment.Matches next = false) :
    resolve (node.mk fragment children) (part :: next :: rest) = ("", false) := by
  rw [resolve_cons_of_represent_ne _ _ _ _ hrep]
  by_cases hm : fragment.Matches part = true
  · have hall : ∀ cs : List node,
        (∀ c ∈ cs, c.fragment.Represent ≠ "" ∧ c.fragment.Matches next = false) →
        resolveChildren fragment.Represent cs (next :: rest) = ("", false) := by
      intro cs
      induction cs with
      | nil => intro _; simp [resolveChildren]
      | cons c cs ih =>
        intro hcs
        obtain ⟨f, gs⟩ := c
        have hc := hcs (node.mk f gs) (by simp)
        simp only [node.fragment] at hc
        rw [resolveChildren, resolve_cons_of_represent_ne _ _ _ _ hc.1]
        simp only [hc.2, Bool.not_false, if_true, Bool.false_eq_true, if_false]
        exact ih (fun d hd => hcs d (by simp [hd]))
    have hne : children.isEmpty = false := by
      cases children with
      | nil => exact absurd rfl hchildren
      | cons _ _ => rfl
    simp [hm, hne, hall children hreject]
  · simp [hm]

/-- A match of the second loop of `resolve` is the match of one of the children. -/
theorem resolveChildren_eq_true (representation : String) (children : List node)
    (path : List String) (out : String)
    (h : resolveChildren representation children path = (out, true)) :
    ∃ c ∈ children, ∃ suffix, resolve c path = (suffix, true) ∧
      out = if suffix = "" then representation else representation ++ "/" ++ suffix := by
  induction children with
  | nil => simp [resolveChildren] at h
  | cons c cs ih =>
    rw [resolveChildren] at h
    rcases hr : resolve c path with ⟨suffix, matched⟩
    rw [hr] at h
    cases matched with
    | true =>
      refine ⟨c, by simp, suffix, hr, ?_⟩
      by_cases hs : suffix = ""
      · simp only [hs, bne_self_eq_false, Bool.false_eq_true, if_false, if_true] at h ⊢
        exact (congrArg Prod.fst h).symm
      · have hb : (suffix != "") = true := by simpa using hs
        simp only [hb, if_true, hs, if_false] at h ⊢
        exact (congrArg Prod.fst h).symm
    | false =>
      simp only [Bool.false_eq_true, if_false] at h
      obtain ⟨d, hd, more⟩ := ih h
      exact ⟨d, by simp [hd], more⟩

theorem intercalate_go_append (s : String) :
    ∀ (rest : List String) (a b : String),
      String.intercalate.go (a ++ b) s rest = a ++ String.intercalate.go b s rest := by
  intro rest
  induction rest with
  | nil => intro a b; simp [String.intercalate.go]
  | cons x xs ih =>
    intro a b
    simp only [String.intercalate.go]
    rw [← ih a (b ++ s ++ x)]
    simp only [String.append_assoc]

/-- Joining with "/" puts the first string, a slash and the join of the
others one after the other. -/
theorem intercalate_cons_cons (r r2 : String) (rs : List String) :
    "/".intercalate (r :: r2 :: rs) = r ++ "/" ++ "/".intercalate (r2 :: rs) := by
  simp only [String.intercalate, String.intercalate.go]
  exact intercalate_go_append "/" rs (r ++ "/") r2

theorem chainTemplate_singleton (n : node) : chainTemplate [n] = n.fragment.Represent := by
  simp [chainTemplate, String.intercalate, String.intercalate.go]

theorem chainTemplate_cons_cons (n c : node) (tail : List node) :
    chainTemplate (n :: c :: tail) =
      n.fragment.Represent ++ "/" ++ chainTemplate (c :: tail) := by
  simp only [chainTemplate, List.map_cons]
  exact intercalate_cons_cons _ _ _

theorem allPlain_mem (children : List node) (h : allPlain children = true) (c : node)
    (hc : c ∈ children) : c.plain = true := by
  induction children with
  | nil => simp at hc
  | cons d ds ih =>
    simp only [allPlain, Bool.and_eq_true] at h
    rcases List.mem_cons.1 hc with rfl | hc
    · exact h.1
    · exact ih h.2 hc

theorem chainMatches_length : ∀ (chain candidates : List node) (path : List String),
    chainMatches candidates chain path → chain.length ≤ path.length := by
  intro chain
  induction chain with
  | nil => intro _ _ _; simp
  | cons n ns ih =>
    intro candidates path h
    cases path with
    | nil => simp [chainMatches] at h
    | cons part rest =>
      simp only [chainMatches] at h
      have := ih n.children rest h.2.2
      simp only [List.length_cons]
      omega

theorem chainMatches_represent_ne : ∀ (chain candidates : List node) (path : List String),
    allPlain candidates = true → chainMatches candidates chain path →
    ∀ n ∈ chain, n.fragment.Represent ≠ "" := by
  intro chain
  induction chain with
  | nil => intro _ _ _ _ n hn; simp at hn
  | cons m ms ih =>
    intro candidates path hplain h n hn
    cases path with
    | nil => simp [chainMatches] at h
    | cons part rest =>
      simp only [chainMatches] at h
      obtain ⟨hm, _, hms⟩ := h
      have hmplain := allPlain_mem candidates hplain m hm
      obtain ⟨fragment, children⟩ := m
      simp only [node.plain, Bool.and_eq_true, bne_iff_ne, ne_eq] at hmplain
      rcases List.mem_cons.1 hn with rfl | hn
      · exact hmplain.1
      · exact ih children rest hmplain.2 hms n hn

/-- A match of a node below which no representation is empty is the template
of a chain of nodes that starts at the node, runs through children and matches
the path segment by segment; the chain stops at a leaf or with the last
segment of the path. -/
theorem resolve_chain : ∀ (rest : List String) (n : node) (part out : String),
    n.plain = true → resolve n (part :: rest) = (out, true) →
    ∃ tail : List node, n.fragment.Matches part = true ∧
      chainMatches n.children tail rest ∧ out = chainTemplate (n :: tail) ∧
      (tail.length = rest.length ∨
        ∃ last, (n :: tail).getLast? = some last ∧ last.children = []) := by
  intro rest
  induction rest with
  | nil =>
    intro n part out hplain h
    obtain ⟨fragment, children⟩ := n
    simp only [node.plain, Bool.and_eq_true, bne_iff_ne, ne_eq] at hplain
    rw [resolve_cons_of_represent_ne _ _ _ _ hplain.1] at h
    by_cases hm : fragment.Matches part = true
    · refine ⟨[], hm, by simp [chainMatches], ?_, Or.inl rfl⟩
      rw [chainTemplate_singleton]
      simp only [hm, Bool.not_true, Bool.false_eq_true, if_false] at h
      by_cases hleaf : children.isEmpty = true
      · simp only [hleaf, if_true] at h
        exact (congrArg Prod.fst h).symm
      · simp only [hleaf, if_false, Bool.false_eq_true] at h
        obtain ⟨c, _, suffix, hc, hout⟩ := resolveChildren_eq_true _ _ _ _ h
        rw [resolve_nil] at hc
        have hs : suffix = "" := (congrArg Prod.fst hc).symm
        simp only [hs, if_true] at hout
        exact hout
    · simp [hm] at h
  | cons part2 rest2 ih =>
    intro n part out hplain h
    obtain ⟨fragment, children⟩ := n
    simp only [node.plain, Bool.and_eq_true, bne_iff_ne, ne_eq] at hplain
    rw [resolve_cons_of_represent_ne _ _ _ _ hplain.1] at h
    by_cases hm : fragment.Matches part = true
    · simp only [hm, Bool.not_true, Bool.false_eq_true, if_false] at h
      by_cases hleaf : children.isEmpty = true
      · simp only [hleaf, if_true] at h
        refine ⟨[], hm, by simp [chainMatches], ?_, Or.inr ⟨_, rfl, ?_⟩⟩
        · rw [chainTemplate_singleton]
          exact (congrArg Prod.fst h).symm
        · simpa [node.children] using hleaf
      · simp only [hleaf, if_false, Bool.false_eq_true] at h
        obtain ⟨c, hc, suffix, hres, hout⟩ := resolveChildren_eq_true _ _ _ _ h
        have hcplain := allPlain_mem children hplain.2 c hc
        obtain ⟨tail, hcm, hchain, hsuffix, hend⟩ := ih c part2 suffix hcplain hres
        have hne : suffix ≠ "" := by
          obtain ⟨f, gs⟩ := c
          simp only [node.plain, Bool.and_eq_true, bne_iff_ne, ne_eq] at hcplain
          rcases resolve_shape f gs part2 rest2 hcplain.1 with hs | hs | ⟨t, hs⟩
          · rw [hs] at hres
            simp at hres
          · rw [hs] at hres
            have h1 := congrArg Prod.fst hres
            simp only at h1
            rw [← h1]
            exact hcplain.1
          · rw [hs] at hres
            have h1 := congrArg Prod.fst hres
            simp only at h1
            rw [← h1]
            exact append_slash_ne_empty _ _
        refine ⟨c :: tail, hm, ⟨hc, hcm, hchain⟩, ?_, ?_⟩
        · rw [chainTemplate_cons_cons, ← hsuffix, hout, if_neg hne]
          rfl
        · rcases hend with hlen | ⟨last, hlast, hleaf⟩
          · left
            simp [hlen]
          · right
            exact ⟨last, by simpa using hlast, hleaf⟩
    · simp [hm] at h

theorem chains_mem (candidates : List node) (n : node) (hn : n ∈ candidates)
    (x : List String) (hx : x ∈ n.chains) : x ∈ chainsOf candidates := by
  induction candidates with
  | nil => simp at hn
  | cons c cs ih =>
    rw [chainsOf, List.mem_append]
    rcases List.mem_cons.1 hn with rfl | hn
    · exact Or.inl hx
    · exact Or.inr (ih hn)

/-- The representations along a chain that matches a path are among the
chains of the tree. -/
theorem chainMatches_chains : ∀ (chain candidates : List node) (path : List String),
    chain ≠ [] → chainMatches candidates chain path →
    chain.map (fun n => n.fragment.Represent) ∈ chainsOf candidates := by
  intro chain
  induction chain with
  | nil => intro _ _ h; exact absurd rfl h
  | cons n ns ih =>
    intro candidates path _ h
    cases path with
    | nil => simp [chainMatches] at h
    | cons part rest =>
      simp only [chainMatches] at h
      obtain ⟨hn, _, hns⟩ := h
      apply chains_mem candidates n hn
      obtain ⟨fragment, children⟩ := n
      simp only [node.chains, List.map_cons, node.fragment, List.mem_cons, List.mem_map]
      cases ns with
      | nil => left; rfl
      | cons m ms =>
        right
        exact ⟨_, ih children rest (by simp) hns, rfl⟩

theorem height_lt_of_mem (children : List node) (c : node) (hc : c ∈ children) :
    c.height ≤ heightOf children := by
  induction children with
  | nil => simp at hc
  | cons d ds ih =>
    rw [heightOf]
    rcases List.mem_cons.1 hc with rfl | hc
    · exact Nat.le_max_left _ _
    · exact Nat.le_trans (ih hc) (Nat.le_max_right _ _)

theorem resolveCall_child (callee caller : node × List String)
    (h : resolveCall callee caller) : callee.1 ∈ caller.1.children := by
  cases h with
  | dispatch fragment children child part rest _ hc => exact hc
  | descend fragment children child part rest _ hc => exact hc

theorem resolveCall_height (callee caller : node × List String)
    (h : resolveCall callee caller) : callee.1.height < caller.1.height := by
  have hc := resolveCall_child callee caller h
  obtain ⟨⟨fragment, children⟩, path⟩ := caller
  simp only [node.children] at hc
  simp only [node.height]
  exact Nat.lt_succ_of_le (height_lt_of_mem children callee.1 hc)

/-- When every call on a child returns what `resolve` returns, the first loop
returns what the first loop of `resolve` returns. -/
theorem dispatchLoop_eq_resolveDispatch (call : node → List String → Option (String × Bool))
    (children : List node) (path : List String)
    (h : ∀ c ∈ children, call c path = some (resolve c path)) :
    dispatchLoop call children path = some (resolveDispatch children path) := by
  induction children with
  | nil => simp [dispatchLoop, resolveDispatch]
  | cons c cs ih =>
    have ih2 := ih (fun d hd => h d (by simp [hd]))
    rw [dispatchLoop, resolveDispatch, h c (by simp)]
    rcases resolve c path with ⟨suffix, matched⟩
    by_cases hm : (matched && suffix != "") = true
    · simp only [hm, if_true]
    · simp only [hm, if_false, Bool.false_eq_true]
      exact ih2

/-- When every call on a child returns what `resolve` returns, the second loop
returns what the second loop of `resolve` returns. -/
theorem childrenLoop_eq_resolveChildren (call : node → List String → Option (String × Bool))
    (representation : String) (children : List node) (path : List String)
    (h : ∀ c ∈ children, call c path = some (resolve c path)) :
    childrenLoop call representation children path =
      some (resolveChildren representation children path) := by
  induction children with
  | nil => simp [childrenLoop, resolveChildren]
  | cons c cs ih =>
    have ih2 := ih (fun d hd => h d (by simp [hd]))
    rw [childrenLoop, resolveChildren, h c (by simp)]
    rcases resolve c path with ⟨suffix, matched⟩
    cases matched with
    | true => by_cases hs : suffix = "" <;> simp [hs]
    | false => simpa using ih2

/-- The function `resolve` satisfies the recursive equation of the Go body:
when the calls on the children return what `resolve` returns, the body returns
what `resolve` returns. -/
theorem resolveStep_eq_resolve (call : node → List String → Option (String × Bool))
    (n : node) (path : List String)
    (h : ∀ c ∈ n.children, ∀ q, call c q = some (resolve c q)) :
    resolveStep call n path = some (resolve n path) := by
  obtain ⟨fragment, children⟩ := n
  simp only [node.children] at h
  cases path with
  | nil => simp [resolveStep, resolve]
  | cons part rest =>
    rw [resolveStep, resolve]
    by_cases hrep : (fragment.Represent == "") = true
    · simp only [hrep, if_true]
      rw [dispatchLoop_eq_resolveDispatch call children (part :: rest)
        (fun c hc => h c hc (part :: rest))]
      cases resolveDispatch children (part :: rest) with
      | some found => rfl
      | none =>
        simp only
        by_cases hm : fragment.Matches part = true
        · by_cases hleaf : children.isEmpty = true
          · simp [hm, hleaf]
          · simp only [hm, hleaf, Bool.not_true, Bool.false_eq_true, if_false]
            exact childrenLoop_eq_resolveChildren call _ children rest
              (fun c hc => h c hc rest)
        · simp [hm]
    · simp only [hrep, if_false, Bool.false_eq_true]
      by_cases hm : fragment.Matches part = true
      · by_cases hleaf : children.isEmpty = true
        · simp [hm, hleaf]
        · simp only [hm, hleaf, Bool.not_true, Bool.false_eq_true, if_false]
          exact childrenLoop_eq_resolveChildren call _ children rest
            (fun c hc => h c hc rest)
      · simp [hm]

/-- With a budget of nested calls that is at least the height of the node,
the bounded run of `resolve` returns, and returns what `resolve` returns. -/
theorem resolveFuel_eq_resolve : ∀ (fuel : Nat) (n : node) (path : List String),
    n.height ≤ fuel → resolveFuel fuel n path = some (resolve n path) := by
  intro fuel
  induction fuel with
  | zero =>
    intro n path h
    obtain ⟨fragment, children⟩ := n
    simp [node.height] at h
  | succ fuel ih =>
    intro n path h
    rw [resolveFuel]
    apply resolveStep_eq_resolve
    intro c hc q
    apply ih
    obtain ⟨fragment, children⟩ := n
    simp only [node.children] at hc
    simp only [node.height] at h
    have := height_lt_of_mem children c hc
    omega

theorem dispatchLoop_congr (call call' : node → List String → Option (String × Bool))
    (children : List node) (path : List String)
    (h : ∀ c ∈ children, call c path = call' c path) :
    dispatchLoop call children path = dispatchLoop call' children path := by
  induction children with
  | nil => simp [dispatchLoop]
  | cons c cs ih =>
    have ih2 := ih (fun d hd => h d (by simp [hd]))
    rw [dispatchLoop, dispatchLoop, h c (by simp), ih2]

theorem childrenLoop_congr (call call' : node → List String → Option (String × Bool))
    (representation : String) (children : List node) (path : List String)
    (h : ∀ c ∈ children, call c path = call' c path) :
    childrenLoop call representation children path =
      childrenLoop call' representation children path := by
  induction children with
  | nil => simp [childrenLoop]
  | cons c cs ih =>
    have ih2 := ih (fun d hd => h d (by simp [hd]))
    rw [childrenLoop, childrenLoop, h c (by simp), ih2]

/-- The body of `resolve` consults its recursive calls only where `resolveCall`
says: two ways of answering the calls that agree there give the same result. -/
theorem resolveStep_congr (call call' : node → List String → Option (String × Bool))
    (n : node) (path : List String)
    (h : ∀ c q, resolveCall (c, q) (n, path) → call c q = call' c q) :
    resolveStep call n path = resolveStep call' n path := by
  obtain ⟨fragment, children⟩ := n
  cases path with
  | nil => simp [resolveStep]
  | cons part rest =>
    rw [resolveStep, resolveStep]
    have hloop : fragment.Matches part = true →
        childrenLoop call fragment.Represent children rest =
          childrenLoop call' fragment.Represent children rest := by
      intro hm
      apply childrenLoop_congr
      intro c hc
      exact h c rest (resolveCall.descend fragment children c part rest hm hc)
    by_cases hrep : (fragment.Represent == "") = true
    · have hd : dispatchLoop call children (part :: rest) =
          dispatchLoop call' children (part :: rest) := by
        apply dispatchLoop_congr
        intro c hc
        exact h c (part :: rest)
          (resolveCall.dispatch fragment children c part rest (by simpa using hrep) hc)
      simp only [hrep, if_true, hd]
      by_cases hm : fragment.Matches part = true
      · rw [hloop hm]
      · simp [hm]
    · simp only [hrep, if_false, Bool.false_eq_true]
      by_cases hm : fragment.Matches part = true
      · rw [hloop hm]
      · simp [hm]

/-! ## Facts about the schema tree -/

/-- The literals declared directly under the synthetic root. -/
theorem tree_children (c : node) (hc : c ∈ tree.children) :
    ∃ value children, c = node.mk (.literal value) children ∧ value ≠ "" ∧
      value ∈ ["repos", "user", "users", "orgs", "organizations", "issues", "search",
        "gists", "notifications", "repositories", "emojis", "events", "feeds", "hub",
        "rate_limit", "teams", "licenses"] := by
  simp only [tree, l, node.children, List.mem_cons, List.mem_singleton, List.not_mem_nil,
    or_false] at hc
  rcases hc with h | h | h | h | h | h | h | h | h | h | h | h | h | h | h | h | h <;>
    exact ⟨_, _, h, by decide, by decide⟩

/-- The children of the synthetic root that come after `repos`. -/
theorem tree_children_tail (c : node) (hc : c ∈ tree.children.tail) :
    ∃ value children, c = node.mk (.literal value) children ∧ value ≠ "" ∧
      value ≠ "repos" := by
  simp only [tree, l, node.children, List.tail_cons, List.mem_cons, List.mem_singleton,
    List.not_mem_nil, or_false] at hc
  rcases hc with h | h | h | h | h | h | h | h | h | h | h | h | h | h | h | h <;>
    exact ⟨_, _, h, by decide, by decide⟩

theorem resolve_tree_cons (part : String) (rest : List String) (h0 : part ≠ "") :
    resolve tree (part :: rest) =
      match resolveDispatch tree.children (part :: rest) with
      | some found => found
      | none => ("", false) := by
  have ht : tree = node.mk (.literal "") tree.children := rfl
  conv_lhs => rw [ht]
  cases hd : resolveDispatch tree.children (part :: rest) <;>
    simp [resolve, hd, PathFragment.Represent, PathFragment.Matches, Ne.symm h0]

/-- The synthetic root matches no path that starts with a non-empty segment
other than the literals declared directly under it. -/
theorem resolve_tree_unknown (part : String) (rest : List String) (h0 : part ≠ "")
    (h : part ∉ ["repos", "user", "users", "orgs", "organizations", "issues", "search",
        "gists", "notifications", "repositories", "emojis", "events", "feeds", "hub",
        "rate_limit", "teams", "licenses"]) :
    resolve tree (part :: rest) = ("", false) := by
  have hd : resolveDispatch tree.children (part :: rest) = none := by
    apply resolveDispatch_eq_none
    intro c hc
    obtain ⟨value, children, rfl, hv, hmem⟩ := tree_children c hc
    rw [resolve_literal_mismatch value children part rest hv]
    intro hvp
    exact h (hvp ▸ hmem)
  have ht : tree = node.mk (.literal "") tree.children := rfl
  rw [ht]
  simp [resolve, hd, PathFragment.Represent, PathFragment.Matches, Ne.symm h0]

/-- A match of the synthetic root on a path that starts with a non-empty
segment is the match of one of its children, behind a slash. -/
theorem resolve_tree_matched (part : String) (rest : List String) (h0 : part ≠ "")
    (out : String) (h : resolve tree (part :: rest) = (out, true)) :
    ∃ c ∈ tree.children, ∃ suffix, resolve c (part :: rest) = (suffix, true) ∧
      suffix ≠ "" ∧ out = "/" ++ suffix := by
  rw [resolve_tree_cons part rest h0] at h
  cases hd : resolveDispatch tree.children (part :: rest) with
  | none => simp [hd] at h
  | some found =>
    obtain ⟨c, hc, suffix, hr, hs, hf⟩ := resolveDispatch_eq_some _ _ _ hd
    refine ⟨c, hc, suffix, hr, hs, ?_⟩
    simp only [hd] at h
    rw [hf] at h
    exact (congrArg Prod.fst h).symm

/-- The synthetic root matches every path that follows a branch of the schema
and goes on with further segments. -/
theorem resolve_tree_onBranch (s e : List String)
    (hb : anyOnBranch tree.children s = true) :
    ∃ suffix, resolve tree (s ++ e) = ("/" ++ suffix, true) := by
  obtain ⟨c, hc, hcb⟩ := (anyOnBranch_iff _ _).1 hb
  obtain ⟨value, children, rfl, hv, _⟩ := tree_children c hc
  cases s with
  | nil => simp [node.onBranch] at hcb
  | cons part rest =>
    have hpart : value = part := by
      simp only [node.onBranch, Bool.and_eq_true, PathFragment.Matches, beq_iff_eq] at hcb
      exact hcb.1
    have hm := onBranch_matched (part :: rest) _ e hcb
    have hrep : (PathFragment.literal value).Represent ≠ "" := by
      simpa [PathFragment.Represent] using hv
    have hne : ∃ suffix, resolve (node.mk (.literal value) children) (part :: rest ++ e) =
        (suffix, true) ∧ suffix ≠ "" := by
      rcases resolve_shape (.literal value) children part (rest ++ e) hrep with h | h | ⟨t, h⟩
      · rw [List.cons_append, h] at hm
        simp at hm
      · exact ⟨_, h, hrep⟩
      · exact ⟨_, h, append_slash_ne_empty _ _⟩
    obtain ⟨suffix, hs, hsne⟩ := hne
    obtain ⟨found, hfound⟩ :=
      resolveDispatch_isSome tree.children (part :: rest ++ e) ⟨_, hc, suffix, hs, hsne⟩
    obtain ⟨_, _, t, _, _, hf⟩ := resolveDispatch_eq_some _ _ _ hfound
    refine ⟨t, ?_⟩
    rw [List.cons_append] at hfound ⊢
    rw [resolve_tree_cons part (rest ++ e) (hpart ▸ hv), hfound, hf]

/-- The literal-only branches of the schema tree, in declaration order. -/
theorem literalBranchesOf_tree :
    literalBranchesOf tree.children =
      [["user", "email", "visibility"], ["user", "emails"], ["user", "public_emails"],
        ["user", "followers"], ["user", "starred"], ["user", "issues"],
        ["search", "repositories"], ["search", "commits"], ["search", "code"],
        ["search", "issues"], ["search", "users"], ["search", "topics"], ["search", "labels"],
        ["gists", "public"], ["gists", "starred"], ["repositories"], ["emojis"], ["events"],
        ["feeds"], ["hub"], ["rate_limit"], ["teams"], ["licenses"]] := by
  decide

/-- Segments that come after a literal-only branch of the schema are ignored:
the result is the template of the leaf. -/
theorem resolve_tree_literal_branch (branch e : List String)
    (hb : branch ∈ literalBranchesOf tree.children) :
    resolve tree (branch ++ e) = ("/" ++ "/".intercalate branch, true) := by
  rw [literalBranchesOf_tree] at hb
  simp only [List.mem_cons, List.mem_singleton, List.not_mem_nil, or_false] at hb
  rcases hb with h | h | h | h | h | h | h | h | h | h | h | h | h | h | h | h | h | h | h |
    h | h | h | h <;> subst h <;>
    simp [tree, l, v, resolve, resolveDispatch, resolveChildren, PathFragment.Matches,
      PathFragment.Represent, String.intercalate, String.intercalate.go]

/-- The subtree of `repos` does not look at the owner and repository segments. -/
theorem resolve_repos_subtree (repoChildren : List node) (o r o' r' : String)
    (t : List String) :
    resolve (node.mk (.literal "repos")
        [node.mk (.variable "owner") [node.mk (.variable "repo") repoChildren]])
        ("repos" :: o :: r :: t) =
      resolve (node.mk (.literal "repos")
        [node.mk (.variable "owner") [node.mk (.variable "repo") repoChildren]])
        ("repos" :: o' :: r' :: t) := by
  have howner : resolve (node.mk (.variable "owner")
        [node.mk (.variable "repo") repoChildren]) (o :: r :: t) =
      resolve (node.mk (.variable "owner")
        [node.mk (.variable "repo") repoChildren]) (o' :: r' :: t) := by
    rw [resolve_variable "owner" _ o o' (r :: t),
      resolve_cons_of_represent_ne _ _ o' (r :: t) (variable_represent_ne _),
      resolve_cons_of_represent_ne _ _ o' (r' :: t) (variable_represent_ne _)]
    simp only [resolveChildren]
    rw [resolve_variable "repo" repoChildren r r' t]
  rw [resolve_cons_of_represent_ne _ _ "repos" (o :: r :: t) (by decide),
    resolve_cons_of_represent_ne _ _ "repos" (o' :: r' :: t) (by decide)]
  simp only [resolveChildren]
  rw [howner]

/-- On a path under `repos` the result of the synthetic root does not depend
on the owner and repository segments. -/
theorem resolve_tree_repos (o r o' r' : String) (t : List String) :
    resolve tree ("repos" :: o :: r :: t) = resolve tree ("repos" :: o' :: r' :: t) := by
  obtain ⟨repoChildren, others, ht, hothers⟩ : ∃ repoChildren others, tree.children =
      node.mk (.literal "repos")
        [node.mk (.variable "owner") [node.mk (.variable "repo") repoChildren]] :: others ∧
      ∀ path, resolveDispatch others ("repos" :: path) = none := by
    refine ⟨_, tree.children.tail, rfl, ?_⟩
    intro path
    apply resolveDispatch_eq_none
    intro c hc
    obtain ⟨value, children, rfl, hv, hne⟩ := tree_children_tail c hc
    rw [resolve_literal_mismatch value children "repos" path hv hne]
  rw [resolve_tree_cons _ _ (by decide), resolve_tree_cons _ _ (by decide), ht]
  simp only [resolveDispatch, hothers]
  rw [resolve_repos_subtree repoChildren o r o' r' t]

theorem GetSimplifiedPath_eq (path : String) :
    GetSimplifiedPath path =
      if pathMatches path = true then (resolve tree (FieldsFunc path splitFunc)).1
      else path := by
  unfold GetSimplifiedPath pathMatches
  rcases hr : resolve tree (FieldsFunc path splitFunc) with ⟨out, matched⟩
  cases matched <;> simp [hr]

/-- No node below the synthetic root has an empty representation. -/
theorem tree_children_plain : allPlain tree.children = true := by
  decide

/-- A match of the synthetic root on a path that starts with a non-empty
segment is "/" followed by the template of a chain of nodes that starts at a
child of the root and matches the path segment by segment; the chain stops at
a leaf or with the last segment of the path. -/
theorem resolve_tree_chain (part : String) (rest : List String) (h0 : part ≠ "")
    (out : String) (h : resolve tree (part :: rest) = (out, true)) :
    ∃ chain : List node, chain ≠ [] ∧ chainMatches tree.children chain (part :: rest) ∧
      out = "/" ++ chainTemplate chain ∧
      (chain.length = (part :: rest).length ∨
        ∃ last, chain.getLast? = some last ∧ last.children = []) := by
  obtain ⟨c, hc, suffix, hres, _, hout⟩ := resolve_tree_matched part rest h0 out h
  have hplain := allPlain_mem tree.children tree_children_plain c hc
  obtain ⟨tail, hm, hchain, hsuffix, hend⟩ := resolve_chain rest c part suffix hplain hres
  refine ⟨c :: tail, by simp, ⟨hc, hm, hchain⟩, by rw [hout, hsuffix], ?_⟩
  rcases hend with hlen | hleaf
  · left
    simp [hlen]
  · right
    exact hleaf

set_option maxRecDepth 100000 in
/-- Every template of a chain of the schema tree is simplified to itself. -/
theorem GetSimplifiedPath_chains (b : List String) (hb : b ∈ chainsOf tree.children) :
    GetSimplifiedPath ("/" ++ "/".intercalate b) = "/" ++ "/".intercalate b ∧
      pathMatches ("/" ++ "/".intercalate b) = true := by
  have hall : ∀ b ∈ chainsOf tree.children,
      GetSimplifiedPath ("/" ++ "/".intercalate b) = "/" ++ "/".intercalate b ∧
        pathMatches ("/" ++ "/".intercalate b) = true := by
    decide
  exact hall b hb

/-! ## The properties of `GetSimplifiedPath` -/

/-- C1, at the input "/": the resolution succeeds on the empty segment
sequence and `GetSimplifiedPath` returns the empty string, which has no
leading slash. -/
theorem GetSimplifiedPath_slash_no_leading_slash :
    pathMatches "/" = true ∧ GetSimplifiedPath "/" = "" ∧
      (GetSimplifiedPath "/").data.head? ≠ some '/' := by
  decide

/-- C1, amended: for every input path with at least one segment on which the
resolution against the schema tree succeeds, the string returned by
`GetSimplifiedPath` begins with the character '/'. -/
theorem GetSimplifiedPath_leading_slash (path : String)
    (hseg : FieldsFunc path splitFunc ≠ []) (hm : pathMatches path = true) :
    (GetSimplifiedPath path).data.head? = some '/' := by
  rw [GetSimplifiedPath_eq, if_pos hm]
  unfold pathMatches at hm
  rcases hf : FieldsFunc path splitFunc with _ | ⟨part, rest⟩
  · exact absurd hf hseg
  · rw [hf] at hm
    have h0 : part ≠ "" := (FieldsFunc_mem path part (by simp [hf])).1
    rcases hr : resolve tree (part :: rest) with ⟨out, matched⟩
    rw [hr] at hm
    simp only at hm
    subst hm
    obtain ⟨c, _, suffix, _, _, hout⟩ := resolve_tree_matched part rest h0 out hr
    simp [hout]

theorem GetSimplifiedPath_leading_slash_witness :
    (GetSimplifiedPath "/repos/kubernetes/test-infra/issues/42").data.head? = some '/' :=
  GetSimplifiedPath_leading_slash "/repos/kubernetes/test-infra/issues/42"
    (by decide) (by decide)

/-- C2: an input path with at least one segment whose first segment is none of
the 17 literals declared directly under the synthetic root is reported as
unmatched and returned unchanged; the synthetic root itself does not match the
segment. -/
theorem GetSimplifiedPath_unknown_first_segment (path part : String) (rest : List String)
    (hseg : FieldsFunc path splitFunc = part :: rest)
    (h : part ∉ ["repos", "user", "users", "orgs", "organizations", "issues", "search",
        "gists", "notifications", "repositories", "emojis", "events", "feeds", "hub",
        "rate_limit", "teams", "licenses"]) :
    GetSimplifiedPath path = path ∧ pathMatches path = false ∧
      tree.fragment.Matches part = false := by
  have h0 : part ≠ "" := (FieldsFunc_mem path part (by simp [hseg])).1
  have hr := resolve_tree_unknown part rest h0 h
  have hm : pathMatches path = false := by
    unfold pathMatches
    rw [hseg, hr]
  refine ⟨?_, hm, ?_⟩
  · rw [GetSimplifiedPath_eq, hm]
    simp
  · simp [tree, l, node.fragment, PathFragment.Matches, Ne.symm h0]

theorem GetSimplifiedPath_unknown_first_segment_witness :
    GetSimplifiedPath "//not//real/" = "//not//real/" ∧
      pathMatches "//not//real/" = false ∧ tree.fragment.Matches "not" = false :=
  GetSimplifiedPath_unknown_first_segment "//not//real/" "not" ["real"]
    (by decide) (by decide)

/-- C3, at the input "/rate_limit/extra": the segments are the branch
rate_limit followed by one more segment, the resolution reports a match and
`GetSimplifiedPath` returns the template of the leaf, not the input. -/
theorem GetSimplifiedPath_rate_limit_extra :
    FieldsFunc "/rate_limit/extra" splitFunc = ["rate_limit"] ++ ["extra"] ∧
      anyOnBranch tree.children ["rate_limit"] = true ∧
      pathMatches "/rate_limit/extra" = true ∧
      GetSimplifiedPath "/rate_limit/extra" = "/rate_limit" ∧
      GetSimplifiedPath "/rate_limit/extra" ≠ "/rate_limit/extra" := by
  decide

/-- C3, amended: for every input path whose segments consist of a full
root-to-leaf branch of the schema followed by at least one extra trailing
segment, the resolution reports a match and `GetSimplifiedPath` returns a
template with a leading slash; when the branch consists of literal nodes only,
that template is the one of the leaf, the trailing segments being dropped, and
it differs from the input. -/
theorem GetSimplifiedPath_branch_extra (path : String) (s e : List String)
    (hseg : FieldsFunc path splitFunc = s ++ e) (he : e ≠ [])
    (hb : anyOnBranch tree.children s = true) :
    pathMatches path = true ∧
      (∃ suffix, GetSimplifiedPath path = "/" ++ suffix) ∧
      (s ∈ literalBranchesOf tree.children →
        GetSimplifiedPath path = "/" ++ "/".intercalate s ∧ GetSimplifiedPath path ≠ path) := by
  obtain ⟨suffix, hr⟩ := resolve_tree_onBranch s e hb
  have hm : pathMatches path = true := by
    unfold pathMatches
    rw [hseg, hr]
  refine ⟨hm, ⟨suffix, ?_⟩, ?_⟩
  · rw [GetSimplifiedPath_eq, if_pos hm, hseg, hr]
  · intro hlit
    have hout : GetSimplifiedPath path = "/" ++ "/".intercalate s := by
      rw [GetSimplifiedPath_eq, if_pos hm, hseg, resolve_tree_literal_branch s e hlit]
    refine ⟨hout, ?_⟩
    intro hsame
    have htok : ∀ b ∈ literalBranchesOf tree.children,
        FieldsFunc ("/" ++ "/".intercalate b) splitFunc = b := by
      decide
    have h1 := htok s hlit
    rw [← hout, hsame, hseg] at h1
    exact he (List.append_right_eq_self.1 h1)

theorem GetSimplifiedPath_branch_extra_witness :
    pathMatches "/user/email/visibility/x/y" = true ∧
      (∃ suffix, GetSimplifiedPath "/user/email/visibility/x/y" = "/" ++ suffix) ∧
      (["user", "email", "visibility"] ∈ literalBranchesOf tree.children →
        GetSimplifiedPath "/user/email/visibility/x/y" =
            "/" ++ "/".intercalate ["user", "email", "visibility"] ∧
          GetSimplifiedPath "/user/email/visibility/x/y" ≠ "/user/email/visibility/x/y") :=
  GetSimplifiedPath_branch_extra "/user/email/visibility/x/y"
    ["user", "email", "visibility"] ["x", "y"] (by decide) (by decide) (by decide)

/-- C4: for all non-empty, slash-free segments o, r and i with i different
from "comments" and "events", the path /repos/o/r/issues/i matches and is
simplified to /repos/:owner/:repo/issues/:issueId. -/
theorem GetSimplifiedPath_variable_substitution (o r i : String)
    (ho : o ≠ "" ∧ '/' ∉ o.data) (hr : r ≠ "" ∧ '/' ∉ r.data) (hi : i ≠ "" ∧ '/' ∉ i.data)
    (hc : i ≠ "comments") (he : i ≠ "events") :
    GetSimplifiedPath ("/repos/" ++ o ++ "/" ++ r ++ "/issues/" ++ i) =
        "/repos/:owner/:repo/issues/:issueId" ∧
      pathMatches ("/repos/" ++ o ++ "/" ++ r ++ "/issues/" ++ i) = true := by
  have hseg : FieldsFunc ("/repos/" ++ o ++ "/" ++ r ++ "/issues/" ++ i) splitFunc =
      ["repos", o, r, "issues", i] := by
    apply FieldsFunc_of_data
    · simp
    · simp [ho, hr, hi]
  have hres : resolve tree ["repos", o, r, "issues", i] =
      ("/repos/:owner/:repo/issues/:issueId", true) := by
    simp [tree, l, v, resolve, resolveDispatch, resolveChildren, PathFragment.Matches,
      PathFragment.Represent, Ne.symm hc, Ne.symm he]
  refine ⟨?_, ?_⟩
  · rw [GetSimplifiedPath, hseg, hres]
    rfl
  · rw [pathMatches, hseg, hres]

theorem GetSimplifiedPath_variable_substitution_witness :
    GetSimplifiedPath "/repos/kubernetes/test-infra/issues/42" =
        "/repos/:owner/:repo/issues/:issueId" ∧
      pathMatches "/repos/kubernetes/test-infra/issues/42" = true :=
  GetSimplifiedPath_variable_substitution "kubernetes" "test-infra" "42" (by decide) (by decide) (by decide)
    (by decide) (by decide)

/-- C5: for all non-empty, slash-free segments o, r and i with i different
from "comments" and "events", the path /repos/o/r/issues/i/comments matches
and is simplified to /repos/:owner/:repo/issues/:issueId/comments. -/
theorem GetSimplifiedPath_nested_variables (o r i : String)
    (ho : o ≠ "" ∧ '/' ∉ o.data) (hr : r ≠ "" ∧ '/' ∉ r.data) (hi : i ≠ "" ∧ '/' ∉ i.data)
    (hc : i ≠ "comments") (he : i ≠ "events") :
    GetSimplifiedPath ("/repos/" ++ o ++ "/" ++ r ++ "/issues/" ++ i ++ "/comments") =
        "/repos/:owner/:repo/issues/:issueId/comments" ∧
      pathMatches ("/repos/" ++ o ++ "/" ++ r ++ "/issues/" ++ i ++ "/comments") = true := by
  have hseg : FieldsFunc ("/repos/" ++ o ++ "/" ++ r ++ "/issues/" ++ i ++ "/comments")
      splitFunc = ["repos", o, r, "issues", i, "comments"] := by
    apply FieldsFunc_of_data
    · simp
    · simp [ho, hr, hi]
  have hres : resolve tree ["repos", o, r, "issues", i, "comments"] =
      ("/repos/:owner/:repo/issues/:issueId/comments", true) := by
    simp [tree, l, v, resolve, resolveDispatch, resolveChildren, PathFragment.Matches,
      PathFragment.Represent, Ne.symm hc, Ne.symm he]
  refine ⟨?_, ?_⟩
  · rw [GetSimplifiedPath, hseg, hres]
    rfl
  · rw [pathMatches, hseg, hres]

theorem GetSimplifiedPath_nested_variables_witness :
    GetSimplifiedPath "/repos/o/r/issues/5/comments" =
        "/repos/:owner/:repo/issues/:issueId/comments" ∧
      pathMatches "/repos/o/r/issues/5/comments" = true :=
  GetSimplifiedPath_nested_variables "o" "r" "5" (by decide) (by decide) (by decide)
    (by decide) (by decide)

/-- C6: two input paths that split into the same segment sequence match or
fail together, and when they match `GetSimplifiedPath` gives the same result
for both; "/repos//o/r/" and "repos/o/r" both give /repos/:owner/:repo. -/
theorem GetSimplifiedPath_slash_normalization (p q : String)
    (h : FieldsFunc p splitFunc = FieldsFunc q splitFunc) :
    pathMatches p = pathMatches q ∧
      (pathMatches p = true → GetSimplifiedPath p = GetSimplifiedPath q) ∧
      GetSimplifiedPath "/repos//o/r/" = "/repos/:owner/:repo" ∧
      GetSimplifiedPath "repos/o/r" = "/repos/:owner/:repo" := by
  have hm : pathMatches p = pathMatches q := by
    unfold pathMatches
    rw [h]
  refine ⟨hm, ?_, by decide, by decide⟩
  intro hp
  rw [GetSimplifiedPath_eq p, GetSimplifiedPath_eq q, ← hm, if_pos hp, if_pos hp, h]

theorem GetSimplifiedPath_slash_normalization_witness :
    pathMatches "/repos//o/r/" = pathMatches "repos/o/r" ∧
      (pathMatches "/repos//o/r/" = true →
        GetSimplifiedPath "/repos//o/r/" = GetSimplifiedPath "repos/o/r") ∧
      GetSimplifiedPath "/repos//o/r/" = "/repos/:owner/:repo" ∧
      GetSimplifiedPath "repos/o/r" = "/repos/:owner/:repo" :=
  GetSimplifiedPath_slash_normalization "/repos//o/r/" "repos/o/r" (by decide)

/-- C7: resolving a path under `repos` gives the same template and the same
flag whatever the owner and repository segments are (in particular for all
non-empty, slash-free ones), for every sequence of segments that follows. -/
theorem resolve_identifier_independent (o r o' r' : String) (t : List String) :
    resolve tree (["repos", o, r] ++ t) = resolve tree (["repos", o', r'] ++ t) := by
  simp only [List.cons_append, List.nil_append]
  exact resolve_tree_repos o r o' r' t

/-- C8: for every root-to-leaf branch of the schema that consists of literal
nodes only, `GetSimplifiedPath` applied to "/" followed by the literals joined
with "/" matches and returns that same string. -/
theorem GetSimplifiedPath_literal_branch (branch : List String)
    (hb : branch ∈ literalBranchesOf tree.children) :
    GetSimplifiedPath ("/" ++ "/".intercalate branch) = "/" ++ "/".intercalate branch ∧
      pathMatches ("/" ++ "/".intercalate branch) = true := by
  have hall : ∀ b ∈ literalBranchesOf tree.children,
      GetSimplifiedPath ("/" ++ "/".intercalate b) = "/" ++ "/".intercalate b ∧
        pathMatches ("/" ++ "/".intercalate b) = true := by
    decide
  exact hall branch hb

theorem GetSimplifiedPath_literal_branch_witness :
    GetSimplifiedPath "/user/email/visibility" = "/user/email/visibility" ∧
      pathMatches "/user/email/visibility" = true :=
  GetSimplifiedPath_literal_branch ["user", "email", "visibility"] (by decide)

/-- C9, at the input "//": the resolution reports a match and
`GetSimplifiedPath` returns the empty string instead of the input. -/
theorem GetSimplifiedPath_double_slash_changed :
    FieldsFunc "//" splitFunc = [] ∧ pathMatches "//" = true ∧
      GetSimplifiedPath "//" ≠ "//" := by
  decide

/-- C9, amended: for every input string that splits on '/' into zero segments,
the resolution reports a match with the empty template and `GetSimplifiedPath`
returns the empty string. -/
theorem GetSimplifiedPath_no_segments (path : String)
    (hseg : FieldsFunc path splitFunc = []) :
    pathMatches path = true ∧ GetSimplifiedPath path = "" := by
  have hm : pathMatches path = true := by
    unfold pathMatches
    rw [hseg, resolve_nil]
  refine ⟨hm, ?_⟩
  rw [GetSimplifiedPath_eq, if_pos hm, hseg, resolve_nil]

theorem GetSimplifiedPath_no_segments_witness :
    pathMatches "/" = true ∧ GetSimplifiedPath "/" = "" :=
  GetSimplifiedPath_no_segments "/" (by decide)

/-- C10: for every input path with at least one segment, the first segment of
the output of `GetSimplifiedPath` is the first segment of the input; hence the
output for a path whose first segment is "user" starts neither with /users
nor with /repos. -/
theorem GetSimplifiedPath_first_segment (path part : String) (rest : List String)
    (hseg : FieldsFunc path splitFunc = part :: rest) :
    (FieldsFunc (GetSimplifiedPath path) splitFunc).head? = some part ∧
      (part = "user" →
        ¬ "/users".data <+: (GetSimplifiedPath path).data ∧
        ¬ "/repos".data <+: (GetSimplifiedPath path).data) := by
  have hpart := FieldsFunc_mem path part (by simp [hseg])
  have hhead : (FieldsFunc (GetSimplifiedPath path) splitFunc).head? = some part := by
    rw [GetSimplifiedPath_eq]
    by_cases hm : pathMatches path = true
    · rw [if_pos hm]
      unfold pathMatches at hm
      rw [hseg] at hm ⊢
      rcases hr : resolve tree (part :: rest) with ⟨out, matched⟩
      rw [hr] at hm
      simp only at hm
      subst hm
      obtain ⟨c, hc, suffix, hs, _, hout⟩ := resolve_tree_matched part rest hpart.1 out hr
      obtain ⟨value, children, rfl, hv, _⟩ := tree_children c hc
      have hrep : (PathFragment.literal value).Represent ≠ "" := by
        simpa [PathFragment.Represent] using hv
      have hval : value = part := by
        by_contra hne
        rw [resolve_literal_mismatch value children part rest hv hne] at hs
        simp at hs
      subst hval
      simp only [hout]
      apply FieldsFunc_root_template value suffix hpart.1 hpart.2
      rcases resolve_shape (.literal value) children value rest hrep with h | h | ⟨t, h⟩
      · rw [h] at hs
        simp at hs
      · rw [h] at hs
        left
        exact (congrArg Prod.fst hs).symm
      · rw [h] at hs
        right
        exact ⟨t, (congrArg Prod.fst hs).symm⟩
    · rw [if_neg hm, hseg]
      rfl
  refine ⟨hhead, ?_⟩
  rintro rfl
  have key : ∀ w : List Char, w ≠ [] → (∀ c ∈ w, splitFunc c = false) →
      ('/' :: w) <+: (GetSimplifiedPath path).data → w <+: "user".data := by
    intro w hw hfree hpre
    obtain ⟨t, ht⟩ := hpre
    have hopen : fieldsLoop splitFunc (GetSimplifiedPath path).data [] =
        fieldsLoop splitFunc t w := by
      rw [← ht, List.cons_append, fieldsLoop_slash, fieldsLoop_append_free splitFunc w hfree]
      simp
    obtain ⟨x, xs, hx, hpre⟩ := fieldsLoop_open splitFunc t w hw
    rw [FieldsFunc, hopen, hx] at hhead
    simp only [List.head?_cons, Option.some.injEq] at hhead
    rw [hhead] at hpre
    exact hpre
  constructor
  · intro h
    have := key "users".data (by decide) (by decide) h
    exact absurd this (by decide)
  · intro h
    have := key "repos".data (by decide) (by decide) h
    exact absurd this (by decide)

theorem GetSimplifiedPath_first_segment_witness :
    (FieldsFunc (GetSimplifiedPath "/user/keys/7") splitFunc).head? = some "user" ∧
      ("user" = "user" →
        ¬ "/users".data <+: (GetSimplifiedPath "/user/keys/7").data ∧
        ¬ "/repos".data <+: (GetSimplifiedPath "/user/keys/7").data) :=
  GetSimplifiedPath_first_segment "/user/keys/7" "user" ["keys", "7"] (by decide)

/-- C11, at the inputs "/repos" and "/repos/o": both stop at an interior node
of the schema (no branch down to a leaf fits them), and both match, with the
templates /repos and /repos/:owner. -/
theorem GetSimplifiedPath_interior_node_matches :
    anyOnBranch tree.children ["repos"] = false ∧
      pathMatches "/repos" = true ∧ GetSimplifiedPath "/repos" = "/repos" ∧
      anyOnBranch tree.children ["repos", "o"] = false ∧
      pathMatches "/repos/o" = true ∧ GetSimplifiedPath "/repos/o" = "/repos/:owner" := by
  decide

/-- C11, amended: for every input path with at least one segment on which the
resolution succeeds, the chain of matched nodes ends at a leaf of the schema
or at the node that matched the last segment of the path, which may be an
interior node; the result is the template of that chain. -/
theorem pathMatches_chain_end (path part : String) (rest : List String)
    (hseg : FieldsFunc path splitFunc = part :: rest) (hm : pathMatches path = true) :
    ∃ chain : List node, chain ≠ [] ∧ chainMatches tree.children chain (part :: rest) ∧
      GetSimplifiedPath path = "/" ++ chainTemplate chain ∧
      (chain.length = (part :: rest).length ∨
        ∃ last, chain.getLast? = some last ∧ last.children = []) := by
  have h0 : part ≠ "" := (FieldsFunc_mem path part (by simp [hseg])).1
  have hout : GetSimplifiedPath path = (resolve tree (part :: rest)).1 := by
    rw [GetSimplifiedPath_eq, if_pos hm, hseg]
  rw [pathMatches, hseg] at hm
  have hr : resolve tree (part :: rest) = ((resolve tree (part :: rest)).1, true) := by
    rw [← hm]
  obtain ⟨chain, hne, hchain, htemplate, hend⟩ := resolve_tree_chain part rest h0 _ hr
  exact ⟨chain, hne, hchain, by rw [hout, htemplate], hend⟩

theorem pathMatches_chain_end_witness :
    ∃ chain : List node, chain ≠ [] ∧ chainMatches tree.children chain ["repos", "o"] ∧
      GetSimplifiedPath "/repos/o" = "/" ++ chainTemplate chain ∧
      (chain.length = ["repos", "o"].length ∨
        ∃ last, chain.getLast? = some last ∧ last.children = []) :=
  pathMatches_chain_end "/repos/o" "repos" ["o"] (by decide) (by decide)

/-- C12: for every input path with segments t1..tm (m >= 1) on which the
resolution succeeds, the output is "/" followed by the "/"-join of the
representations of a chain of schema nodes n1..nk with 1 <= k <= m, where n1
is a child of the synthetic root, every next node is a child of the one
before it and ni matches ti; no representation in the chain is empty, so the
root's own representation does not appear. -/
theorem GetSimplifiedPath_template_reconstruction (path part : String) (rest : List String)
    (hseg : FieldsFunc path splitFunc = part :: rest) (hm : pathMatches path = true) :
    ∃ chain : List node, 1 ≤ chain.length ∧ chain.length ≤ (part :: rest).length ∧
      chainMatches tree.children chain (part :: rest) ∧
      GetSimplifiedPath path =
        "/" ++ "/".intercalate (chain.map (fun n => n.fragment.Represent)) ∧
      ∀ n ∈ chain, n.fragment.Represent ≠ "" := by
  have h0 : part ≠ "" := (FieldsFunc_mem path part (by simp [hseg])).1
  have hout : GetSimplifiedPath path = (resolve tree (part :: rest)).1 := by
    rw [GetSimplifiedPath_eq, if_pos hm, hseg]
  rw [pathMatches, hseg] at hm
  have hr : resolve tree (part :: rest) = ((resolve tree (part :: rest)).1, true) := by
    rw [← hm]
  obtain ⟨chain, hne, hchain, htemplate, _⟩ := resolve_tree_chain part rest h0 _ hr
  refine ⟨chain, ?_, chainMatches_length chain _ _ hchain, hchain, ?_,
    chainMatches_represent_ne chain _ _ tree_children_plain hchain⟩
  · cases chain with
    | nil => exact absurd rfl hne
    | cons _ _ => simp
  · rw [hout, htemplate]
    rfl

theorem GetSimplifiedPath_template_reconstruction_witness :
    ∃ chain : List node, 1 ≤ chain.length ∧
      chain.length ≤ ["repos", "o", "r", "issues", "5", "comments"].length ∧
      chainMatches tree.children chain ["repos", "o", "r", "issues", "5", "comments"] ∧
      GetSimplifiedPath "/repos/o/r/issues/5/comments" =
        "/" ++ "/".intercalate (chain.map (fun n => n.fragment.Represent)) ∧
      ∀ n ∈ chain, n.fragment.Represent ≠ "" :=
  GetSimplifiedPath_template_reconstruction "/repos/o/r/issues/5/comments" "repos"
    ["o", "r", "issues", "5", "comments"] (by decide) (by decide)

/-- C13: for every input string the tokenizer yields segments that are not
empty and contain no '/', and they are the maximal slash-free runs of the
input in order (the only sequence that is); "/repos/a/b", "repos/a/b/" and
"repos//a/b" all yield repos, a, b. -/
theorem FieldsFunc_slash_free_runs (s : String) :
    (∀ x ∈ FieldsFunc s splitFunc, x ≠ "" ∧ '/' ∉ x.data) ∧
      SlashFreeRuns s.data (FieldsFunc s splitFunc) ∧
      (∀ segs, SlashFreeRuns s.data segs ↔ segs = FieldsFunc s splitFunc) ∧
      FieldsFunc "/repos/a/b" splitFunc = ["repos", "a", "b"] ∧
      FieldsFunc "repos/a/b/" splitFunc = ["repos", "a", "b"] ∧
      FieldsFunc "repos//a/b" splitFunc = ["repos", "a", "b"] := by
  have hruns : SlashFreeRuns s.data (FieldsFunc s splitFunc) := by
    have := fieldsLoop_runs s.data [] (by simp)
    simpa [FieldsFunc] using this
  refine ⟨fun x hx => FieldsFunc_mem s x hx, hruns, ?_, by decide, by decide, by decide⟩
  intro segs
  constructor
  · intro h
    exact (fieldsLoop_of_runs s.data segs h).symm
  · rintro rfl
    exact hruns

/-- C14: a literal matches a segment exactly when the segment equals its
value, a variable matches every segment, and `resolve` on a variable node
never takes the branch that rejects the first segment: its result is decided
by the children alone. -/
theorem Matches_literal_variable :
    (∀ value s : String, (PathFragment.literal value).Matches s = true ↔ s = value) ∧
      (∀ name s : String, (PathFragment.variable name).Matches s = true) ∧
      (∀ (name : String) (children : List node) (part : String) (rest : List String),
        resolve (node.mk (.variable name) children) (part :: rest) =
          if children.isEmpty then (":" ++ name, true)
          else resolveChildren (":" ++ name) children rest) := by
  refine ⟨?_, ?_, ?_⟩
  · intro value s
    simp only [PathFragment.Matches, beq_iff_eq]
    exact eq_comm
  · intro name s
    rfl
  · intro name children part rest
    rw [resolve_cons_of_represent_ne _ _ _ _ (variable_represent_ne name)]
    simp [PathFragment.Matches, PathFragment.Represent]

/-- C15: under /repos/:owner/:repo/issues the literal child events is tried
before the variable child issueId, so /repos/o/r/issues/events/x is simplified
to /repos/:owner/:repo/issues/events/:eventId for all non-empty, slash-free
o, r and x, although the later branch :issueId/x matches the last two
segments too when x is lock, comments, events or labels. -/
theorem GetSimplifiedPath_first_declared (o r x : String)
    (ho : o ≠ "" ∧ '/' ∉ o.data) (hr : r ≠ "" ∧ '/' ∉ r.data) (hx : x ≠ "" ∧ '/' ∉ x.data) :
    GetSimplifiedPath ("/repos/" ++ o ++ "/" ++ r ++ "/issues/events/" ++ x) =
        "/repos/:owner/:repo/issues/events/:eventId" ∧
      pathMatches ("/repos/" ++ o ++ "/" ++ r ++ "/issues/events/" ++ x) = true ∧
      ∀ y ∈ ["lock", "comments", "events", "labels"],
        resolve (v "issueId" [l "lock" [], l "comments" [], l "events" [],
          l "labels" [v "labelId" []]]) ["events", y] = (":issueId/" ++ y, true) := by
  have hseg : FieldsFunc ("/repos/" ++ o ++ "/" ++ r ++ "/issues/events/" ++ x) splitFunc =
      ["repos", o, r, "issues", "events", x] := by
    apply FieldsFunc_of_data
    · simp
    · simp [ho, hr, hx]
  have hres : resolve tree ["repos", o, r, "issues", "events", x] =
      ("/repos/:owner/:repo/issues/events/:eventId", true) := by
    simp [tree, l, v, resolve, resolveDispatch, resolveChildren, PathFragment.Matches,
      PathFragment.Represent]
  refine ⟨?_, ?_, by decide⟩
  · rw [GetSimplifiedPath, hseg, hres]
    rfl
  · rw [pathMatches, hseg, hres]

theorem GetSimplifiedPath_first_declared_witness :
    GetSimplifiedPath "/repos/o/r/issues/events/lock" =
        "/repos/:owner/:repo/issues/events/:eventId" ∧
      pathMatches "/repos/o/r/issues/events/lock" = true ∧
      ∀ y ∈ ["lock", "comments", "events", "labels"],
        resolve (v "issueId" [l "lock" [], l "comments" [], l "events" [],
          l "labels" [v "labelId" []]]) ["events", y] = (":issueId/" ++ y, true) :=
  GetSimplifiedPath_first_declared "o" "r" "lock" (by decide) (by decide) (by decide)

/-- C16: a node that matches a segment and whose children all reject the
next segment reports a failure instead of its own representation, and a path
on which every chain of matching nodes stops at an interior node before the
path ends is unmatched as a whole; so for every non-empty, slash-free segment
s that is none of the children of search, /search/s is unmatched and returned
unchanged, not simplified to /search. -/
theorem GetSimplifiedPath_no_partial_match (s : String) (hs : s ≠ "" ∧ '/' ∉ s.data)
    (h : s ∉ ["repositories", "commits", "code", "issues", "users", "topics", "labels"]) :
    (GetSimplifiedPath ("/search/" ++ s) = "/search/" ++ s ∧
      pathMatches ("/search/" ++ s) = false) ∧
      (∀ (fragment : PathFragment) (children : List node) (part next : String)
        (rest : List String), fragment.Represent ≠ "" → children ≠ [] →
        (∀ c ∈ children, c.fragment.Represent ≠ "" ∧ c.fragment.Matches next = false) →
        resolve (node.mk fragment children) (part :: next :: rest) = ("", false)) ∧
      ∀ (path part : String) (rest : List String),
        FieldsFunc path splitFunc = part :: rest →
        (∀ chain : List node, chain ≠ [] → chainMatches tree.children chain (part :: rest) →
          chain.length < (part :: rest).length ∧
            ∀ last, chain.getLast? = some last → last.children ≠ []) →
        pathMatches path = false ∧ GetSimplifiedPath path = path := by
  have hseg : FieldsFunc ("/search/" ++ s) splitFunc = ["search", s] := by
    apply FieldsFunc_of_data
    · simp
    · simp [hs]
  simp only [List.mem_cons, List.mem_singleton, List.not_mem_nil, or_false, not_or] at h
  obtain ⟨h1, h2, h3, h4, h5, h6, h7⟩ := h
  have hres : resolve tree ["search", s] = ("", false) := by
    simp [tree, l, v, resolve, resolveDispatch, resolveChildren, PathFragment.Matches,
      PathFragment.Represent, Ne.symm h1, Ne.symm h2, Ne.symm h3, Ne.symm h4, Ne.symm h5,
      Ne.symm h6, Ne.symm h7]
  have hm : pathMatches ("/search/" ++ s) = false := by
    rw [pathMatches, hseg, hres]
  refine ⟨⟨?_, hm⟩, ?_, ?_⟩
  · rw [GetSimplifiedPath_eq, hm]
    simp
  · intro fragment children part next rest hrep hchildren hreject
    exact resolve_children_reject fragment children part next rest hrep hchildren hreject
  · intro path part rest hpath hstuck
    have h0 : part ≠ "" := (FieldsFunc_mem path part (by simp [hpath])).1
    have hno : pathMatches path = false := by
      by_contra hyes
      have hyes2 : pathMatches path = true := by simpa using hyes
      rw [pathMatches, hpath] at hyes2
      have hr : resolve tree (part :: rest) = ((resolve tree (part :: rest)).1, true) := by
        rw [← hyes2]
      obtain ⟨chain, hne, hchain, _, hend⟩ := resolve_tree_chain part rest h0 _ hr
      obtain ⟨hlt, hinner⟩ := hstuck chain hne hchain
      rcases hend with hlen | ⟨last, hlast, hleaf⟩
      · omega
      · exact hinner last hlast hleaf
    refine ⟨hno, ?_⟩
    rw [GetSimplifiedPath_eq, hno]
    simp

theorem GetSimplifiedPath_no_partial_match_witness :
    (GetSimplifiedPath "/search/wiki" = "/search/wiki" ∧
      pathMatches "/search/wiki" = false) ∧
      (∀ (fragment : PathFragment) (children : List node) (part next : String)
        (rest : List String), fragment.Represent ≠ "" → children ≠ [] →
        (∀ c ∈ children, c.fragment.Represent ≠ "" ∧ c.fragment.Matches next = false) →
        resolve (node.mk fragment children) (part :: next :: rest) = ("", false)) ∧
      ∀ (path part : String) (rest : List String),
        FieldsFunc path splitFunc = part :: rest →
        (∀ chain : List node, chain ≠ [] → chainMatches tree.children chain (part :: rest) →
          chain.length < (part :: rest).length ∧
            ∀ last, chain.getLast? = some last → last.children ≠ []) →
        pathMatches path = false ∧ GetSimplifiedPath path = path :=
  GetSimplifiedPath_no_partial_match "wiki" (by decide) (by decide)

/-- C17: on a non-empty sequence of non-empty segments, a node with an empty
representation succeeds exactly when one of its children succeeds on the
same, whole sequence, and its result is then "/" followed by the result of
the first such child in declaration order; otherwise it fails. -/
theorem resolve_dispatch_rule (fragment : PathFragment) (children : List node)
    (path : List String) (hrep : fragment.Represent = "") (hpath : path ≠ [])
    (hseg : ∀ s ∈ path, s ≠ "") :
    resolve (node.mk fragment children) path =
        (match children.find? (fun c => (resolve c path).2) with
          | some c => ("/" ++ (resolve c path).1, true)
          | none => ("", false)) ∧
      ((resolve (node.mk fragment children) path).2 = true ↔
        ∃ c ∈ children, (resolve c path).2 = true) := by
  obtain ⟨part, rest, rfl⟩ : ∃ part rest, path = part :: rest := by
    cases path with
    | nil => exact absurd rfl hpath
    | cons part rest => exact ⟨part, rest, rfl⟩
  have h0 : part ≠ "" := hseg part (by simp)
  have hd := resolveDispatch_eq_find children (part :: rest)
    (fun c _ out hc => resolve_template_ne_empty c part rest h0 out hc)
  have hm : fragment.Matches part = false := by
    rcases fragment with value | name
    · simp only [PathFragment.Represent] at hrep
      simp [PathFragment.Matches, hrep, Ne.symm h0]
    · exact absurd hrep (variable_represent_ne name)
  have heq : resolve (node.mk fragment children) (part :: rest) =
      (match children.find? (fun c => (resolve c (part :: rest)).2) with
        | some c => ("/" ++ (resolve c (part :: rest)).1, true)
        | none => ("", false)) := by
    rw [resolve]
    simp only [hrep, beq_self_eq_true, if_true, hd]
    cases children.find? (fun c => (resolve c (part :: rest)).2) <;> simp [hm]
  refine ⟨heq, ?_⟩
  rw [heq]
  cases hf : children.find? (fun c => (resolve c (part :: rest)).2) with
  | none =>
    simp only [Bool.false_eq_true, false_iff, not_exists, not_and]
    intro c hc
    have := List.find?_eq_none.1 hf c hc
    simpa using this
  | some c =>
    simp only [true_iff]
    have hc := @List.find?_some node (fun c => (resolve c (part :: rest)).2) c children hf
    exact ⟨c, List.mem_of_find?_eq_some hf, hc⟩

theorem resolve_dispatch_rule_witness :
    resolve (node.mk (.literal "") [l "a" [], l "b" [l "c" []], v "x" []]) ["b", "c"] =
        (match [l "a" [], l "b" [l "c" []], v "x" []].find?
            (fun c => (resolve c ["b", "c"]).2) with
          | some c => ("/" ++ (resolve c ["b", "c"]).1, true)
          | none => ("", false)) ∧
      ((resolve (node.mk (.literal "") [l "a" [], l "b" [l "c" []], v "x" []])
          ["b", "c"]).2 = true ↔
        ∃ c ∈ [l "a" [], l "b" [l "c" []], v "x" []], (resolve c ["b", "c"]).2 = true) :=
  resolve_dispatch_rule (.literal "") [l "a" [], l "b" [l "c" []], v "x" []] ["b", "c"]
    rfl (by decide) (by decide)

/-- C18: `resolve` terminates on every tree and every segment sequence: run
with a budget of nested calls that is at least the height of the node, the Go
body returns a result, the one of `resolve`, whatever the length of the path
and also at nodes with an empty representation, whose calls pass the whole
path on; every recursive call of the body is made on a child of the current
node, so on a node of smaller height, and the calls form a well-founded
relation. With no budget there is no result, and a budget of 2 is too small
for the schema tree on the path repos while 3 is enough. -/
theorem resolve_terminates (n : node) (path : List String) (fuel : Nat)
    (h : n.height ≤ fuel) :
    resolveFuel fuel n path = some (resolve n path) ∧
      (∀ (call call' : node → List String → Option (String × Bool)),
        (∀ c q, resolveCall (c, q) (n, path) → call c q = call' c q) →
        resolveStep call n path = resolveStep call' n path) ∧
      (∀ callee caller, resolveCall callee caller →
        callee.1 ∈ caller.1.children ∧ callee.1.height < caller.1.height) ∧
      (∀ (children : List node) (child : node) (part : String) (rest : List String),
        child ∈ children →
        resolveCall (child, part :: rest) (node.mk (.literal "") children, part :: rest)) ∧
      WellFounded resolveCall ∧
      (∀ (m : node) (q : List String), resolveFuel 0 m q = none) ∧
      resolveFuel 2 tree ["repos"] = none ∧
      resolveFuel 3 tree ["repos"] = some ("/repos", true) := by
  refine ⟨resolveFuel_eq_resolve fuel n path h, ?_, ?_, ?_, ?_, ?_, by decide, by decide⟩
  · intro call call' hagree
    exact resolveStep_congr call call' n path hagree
  · intro callee caller hcall
    exact ⟨resolveCall_child callee caller hcall, resolveCall_height callee caller hcall⟩
  · intro children child part rest hc
    exact resolveCall.dispatch _ children child part rest rfl hc
  · apply Subrelation.wf _ (measure (fun p : node × List String => p.1.height)).wf
    intro callee caller hcall
    exact resolveCall_height callee caller hcall
  · intro m q
    rfl

theorem resolve_terminates_witness :
    resolveFuel 9 tree ["repos", "o", "r", "issues", "5"] =
        some (resolve tree ["repos", "o", "r", "issues", "5"]) ∧
      (∀ (call call' : node → List String → Option (String × Bool)),
        (∀ c q, resolveCall (c, q) (tree, ["repos", "o", "r", "issues", "5"]) →
          call c q = call' c q) →
        resolveStep call tree ["repos", "o", "r", "issues", "5"] =
          resolveStep call' tree ["repos", "o", "r", "issues", "5"]) ∧
      (∀ callee caller, resolveCall callee caller →
        callee.1 ∈ caller.1.children ∧ callee.1.height < caller.1.height) ∧
      (∀ (children : List node) (child : node) (part : String) (rest : List String),
        child ∈ children →
        resolveCall (child, part :: rest) (node.mk (.literal "") children, part :: rest)) ∧
      WellFounded resolveCall ∧
      (∀ (m : node) (q : List String), resolveFuel 0 m q = none) ∧
      resolveFuel 2 tree ["repos"] = none ∧
      resolveFuel 3 tree ["repos"] = some ("/repos", true) :=
  resolve_terminates tree ["repos", "o", "r", "issues", "5"] 9 (by decide)

/-- C19: `GetSimplifiedPath` is idempotent: simplifying its output again
gives the same output, and the template of a successful resolution is matched
again. -/
theorem GetSimplifiedPath_idempotent (p : String) :
    GetSimplifiedPath (GetSimplifiedPath p) = GetSimplifiedPath p ∧
      (pathMatches p = true → pathMatches (GetSimplifiedPath p) = true) := by
  by_cases hm : pathMatches p = true
  · rcases hseg : FieldsFunc p splitFunc with _ | ⟨part, rest⟩
    · have hout : GetSimplifiedPath p = "" := by
        rw [GetSimplifiedPath_eq, if_pos hm, hseg, resolve_nil]
      rw [hout]
      exact ⟨by decide, fun _ => by decide⟩
    · have h0 : part ≠ "" := (FieldsFunc_mem p part (by simp [hseg])).1
      have hout : GetSimplifiedPath p = (resolve tree (part :: rest)).1 := by
        rw [GetSimplifiedPath_eq, if_pos hm, hseg]
      rw [pathMatches, hseg] at hm
      have hr : resolve tree (part :: rest) = ((resolve tree (part :: rest)).1, true) := by
        rw [← hm]
      obtain ⟨chain, hne, hchain, htemplate, _⟩ := resolve_tree_chain part rest h0 _ hr
      have hb := chainMatches_chains chain tree.children (part :: rest) hne hchain
      have hfix := GetSimplifiedPath_chains _ hb
      have hform : GetSimplifiedPath p =
          "/" ++ "/".intercalate (chain.map (fun n => n.fragment.Represent)) := by
        rw [hout, htemplate]
        rfl
      rw [hform]
      exact ⟨hfix.1, fun _ => hfix.2⟩
  · have hout : GetSimplifiedPath p = p := by
      rw [GetSimplifiedPath_eq, if_neg hm]
    rw [hout]
    exact ⟨hout, fun h => absurd h hm⟩

theorem GetSimplifiedPath_idempotent_witness :
    GetSimplifiedPath (GetSimplifiedPath "/repos/o/r/issues/5") =
        GetSimplifiedPath "/repos/o/r/issues/5" ∧
      (pathMatches "/repos/o/r/issues/5" = true →
        pathMatches (GetSimplifiedPath "/repos/o/r/issues/5") = true) :=
  GetSimplifiedPath_idempotent "/repos/o/r/issues/5"

end ghmetrics
